import Mathlib

/-!
Verification development for `update_gp_endoflife.py`, the GlobalProtect
end-of-life registry updater.  The Python source is embedded shallowly:
strings become `List Char` (Python strings are sequences of code points,
indexed by position), fallible code returns `Option`/`Except`, and the
program's regular-expression scans become executable recursive scanners
with the same matching semantics.
-/

namespace GP

/-- A parsed GlobalProtect version: `(major, minor, patch, build)`.
Python compares these as tuples, i.e. lexicographically. -/
abbrev Version := Nat × Nat × Nat × Nat

/-- Python's `>` on 4-tuples of ints: lexicographic strict order. -/
def tupGt : Version → Version → Bool
  | (a1, b1, c1, d1), (a2, b2, c2, d2) =>
    if a1 ≠ a2 then a1 > a2
    else if b1 ≠ b2 then b1 > b2
    else if c1 ≠ c2 then c1 > c2
    else d1 > d2

/-- Maximal leading run of decimal digits of a string, and the rest.
Models a greedy `\d+` (or `\d*`) at the current position. -/
def digitRun (s : List Char) : List Char × List Char :=
  (s.takeWhile Char.isDigit, s.dropWhile Char.isDigit)

/-- Python `int` on a run of decimal digits. -/
def charsToNat (run : List Char) : Nat :=
  run.foldl (fun a c => a * 10 + (c.toNat - '0'.toNat)) 0

/-- Python's non-MULTILINE `$`: matches at the end of the string or just
before a newline that is the last character of the string. -/
def endOk (rest : List Char) : Bool := rest.isEmpty || rest == ['\n']

/-- `parse_version` from the source: `re.match(r"(\d+)\.(\d+)\.(\d+)(?:-c(\d+))?$", s)`,
yielding `(major, minor, patch, build)` with `build` defaulting to `0`. -/
def parse_version (s : List Char) : Option Version :=
  let (a, r1) := digitRun s
  if a.isEmpty then none else
  match r1 with
  | '.' :: r2 =>
    let (b, r3) := digitRun r2
    if b.isEmpty then none else
    match r3 with
    | '.' :: r4 =>
      let (c, r5) := digitRun r4
      if c.isEmpty then none else
      match r5 with
      | '-' :: 'c' :: r6 =>
        let (d, r7) := digitRun r6
        if d.isEmpty then none
        else if endOk r7 then some (charsToNat a, charsToNat b, charsToNat c, charsToNat d)
        else none
      | rest =>
        if endOk rest then some (charsToNat a, charsToNat b, charsToNat c, 0) else none
    | _ => none
  | _ => none

/-- `get_release_cycle` from the source: `re.match(r"(\d+\.\d+)", s)`,
the leading `digits '.' digits` of the string, or no value. -/
def get_release_cycle (s : List Char) : Option (List Char) :=
  let (a, r1) := digitRun s
  if a.isEmpty then none else
  match r1 with
  | '.' :: r2 =>
    let (b, _) := digitRun r2
    if b.isEmpty then none else some (a ++ '.' :: b)
  | _ => none

/-! ### Date handling

`load_json_versions` reformats each entry's `released-on` field via
`datetime.strptime(s, "%Y/%m/%d %H:%M:%S").strftime("%Y-%m-%d")`.  The model
below follows CPython's `_strptime` translation of that format into a regex
(`%Y` = four digits, `%m` = `1[0-2]|0[1-9]|[1-9]`, `%d` =
`3[01]|[12]\d|0[1-9]|[1-9]| [1-9]`, `%H` = `2[0-3]|[0-1]\d|\d`,
`%M` = `[0-5]\d|\d`, `%S` = `6[01]|[0-5]\d|\d`, a space in the format =
`\s+`, full match required), together with the `datetime` constructor's
range validation.  Alternatives are tried in order with backtracking,
modelled by the `List` monad; whitespace (ASCII) and digits as in Python. -/

/-- Python `\s` on ASCII text. -/
def isPySpace (ch : Char) : Bool :=
  ch = ' ' || ch = '\t' || ch = '\n' || ch = '\r' || ch = '\x0b' || ch = '\x0c'

/-- Value of a decimal digit character. -/
def digitVal (c : Char) : Nat := c.toNat - '0'.toNat

/-- A two-character alternative of a strptime field regex. -/
def twoDigitAlt (p1 p2 : Char → Bool) : List Char → List (Nat × List Char)
  | c1 :: c2 :: r => if p1 c1 && p2 c2 then [(digitVal c1 * 10 + digitVal c2, r)] else []
  | _ => []

/-- A one-character alternative of a strptime field regex. -/
def oneDigitAlt (p : Char → Bool) : List Char → List (Nat × List Char)
  | c :: r => if p c then [(digitVal c, r)] else []
  | _ => []

/-- The `%d` alternative ` [1-9]` (space then nonzero digit). -/
def spaceDigitAlt : List Char → List (Nat × List Char)
  | ' ' :: c :: r => if c.isDigit && c ≠ '0' then [(digitVal c, r)] else []
  | _ => []

/-- `%Y`: exactly four digits. -/
def yearAlt : List Char → List (Nat × List Char)
  | a :: b :: c :: d :: r =>
    if a.isDigit && b.isDigit && c.isDigit && d.isDigit then
      [(digitVal a * 1000 + digitVal b * 100 + digitVal c * 10 + digitVal d, r)]
    else []
  | _ => []

/-- `%m` = `1[0-2]|0[1-9]|[1-9]`. -/
def monthAlts (s : List Char) : List (Nat × List Char) :=
  twoDigitAlt (· = '1') (fun c => c = '0' || c = '1' || c = '2') s ++
  twoDigitAlt (· = '0') (fun c => c.isDigit && c ≠ '0') s ++
  oneDigitAlt (fun c => c.isDigit && c ≠ '0') s

/-- `%d` = `3[01]|[12]\d|0[1-9]|[1-9]| [1-9]`. -/
def dayAlts (s : List Char) : List (Nat × List Char) :=
  twoDigitAlt (· = '3') (fun c => c = '0' || c = '1') s ++
  twoDigitAlt (fun c => c = '1' || c = '2') Char.isDigit s ++
  twoDigitAlt (· = '0') (fun c => c.isDigit && c ≠ '0') s ++
  oneDigitAlt (fun c => c.isDigit && c ≠ '0') s ++
  spaceDigitAlt s

/-- `%H` = `2[0-3]|[0-1]\d|\d`. -/
def hourAlts (s : List Char) : List (Nat × List Char) :=
  twoDigitAlt (· = '2') (fun c => c = '0' || c = '1' || c = '2' || c = '3') s ++
  twoDigitAlt (fun c => c = '0' || c = '1') Char.isDigit s ++
  oneDigitAlt Char.isDigit s

/-- `%M` = `[0-5]\d|\d`. -/
def minuteAlts (s : List Char) : List (Nat × List Char) :=
  twoDigitAlt (fun c => c.isDigit && c ≤ '5') Char.isDigit s ++
  oneDigitAlt Char.isDigit s

/-- `%S` = `6[01]|[0-5]\d|\d`. -/
def secondAlts (s : List Char) : List (Nat × List Char) :=
  twoDigitAlt (· = '6') (fun c => c = '0' || c = '1') s ++
  twoDigitAlt (fun c => c.isDigit && c ≤ '5') Char.isDigit s ++
  oneDigitAlt Char.isDigit s

/-- A literal `/` of the format. -/
def litSlash : List Char → List (List Char)
  | '/' :: r => [r]
  | _ => []

/-- A literal `:` of the format. -/
def litColon : List Char → List (List Char)
  | ':' :: r => [r]
  | _ => []

/-- Whitespace in the format becomes `\s+` (greedy, candidates longest first). -/
def wsAlts (s : List Char) : List (List Char) :=
  let n := (s.takeWhile isPySpace).length
  (List.range n).map (fun i => s.drop (n - i))

/-- All parses of `%Y/%m/%d %H:%M:%S` against the whole string, in
backtracking order. -/
def dateCandidates (s : List Char) : List (Nat × Nat × Nat × Nat × Nat × Nat) := do
  let (y, r1) ← yearAlt s
  let r2 ← litSlash r1
  let (mo, r3) ← monthAlts r2
  let r4 ← litSlash r3
  let (d, r5) ← dayAlts r4
  let r6 ← wsAlts r5
  let (h, r7) ← hourAlts r6
  let r8 ← litColon r7
  let (mi, r9) ← minuteAlts r8
  let r10 ← litColon r9
  let (se, r11) ← secondAlts r10
  if r11.isEmpty then pure (y, mo, d, h, mi, se) else []

/-- Gregorian leap year. -/
def isLeap (y : Nat) : Bool := y % 4 = 0 && (y % 100 ≠ 0 || y % 400 = 0)

/-- Days in a month (used by the `datetime` constructor's validation). -/
def daysInMonth (y m : Nat) : Nat :=
  if m = 2 then (if isLeap y then 29 else 28)
  else if m = 4 || m = 6 || m = 9 || m = 11 then 30
  else 31

/-- Decimal digits of a natural number. -/
def natDigits (n : Nat) : List Char := Nat.toDigits 10 n

/-- Zero-pad to two digits, as `%m`/`%d` of strftime do. -/
def pad2 (n : Nat) : List Char := if n < 10 then '0' :: natDigits n else natDigits n

/-- The whole date conversion of `load_json_versions`:
`datetime.strptime(s, "%Y/%m/%d %H:%M:%S").strftime("%Y-%m-%d")`.
`none` models the `ValueError` that `strptime` or the `datetime`
constructor raises (which is fatal for the whole load). -/
def convertDate (s : List Char) : Option (List Char) :=
  match (dateCandidates s).head? with
  | none => none
  | some (y, mo, d, _, _, se) =>
    if 1 ≤ y && d ≤ daysInMonth y mo && se ≤ 59 then
      some (natDigits y ++ '-' :: pad2 mo ++ '-' :: pad2 d)
    else none

/-- One record of the upstream JSON feed (`version` / `released-on`). -/
structure Entry where
  version : List Char
  releasedOn : List Char

/-- One value of the per-cycle map built by `load_json_versions`. -/
structure CycleEntry where
  version : List Char
  date : List Char
deriving DecidableEq

/-- The Python dict from release-cycle string to its kept entry. -/
def Cycles := List Char → Option CycleEntry

/-- The empty dict. -/
def emptyCycles : Cycles := fun _ => none

/-- `cycles[cycle] = e`. -/
def setCycle (m : Cycles) (c : List Char) (e : CycleEntry) : Cycles :=
  fun c' => if c' = c then some e else m c'

/-- One iteration of the `for entry in entries` loop of `load_json_versions`. -/
def loadStep (m : Cycles) (entry : Entry) : Except Unit Cycles :=
  match parse_version entry.version with
  | none => .ok m
  | some parsed =>
    match get_release_cycle entry.version with
    | none => .ok m
    | some cycle =>
      match convertDate entry.releasedOn with
      | none => .error ()
      | some released_date =>
        match m cycle with
        | none => .ok (setCycle m cycle ⟨entry.version, released_date⟩)
        | some old =>
          match parse_version old.version with
          | none => .error ()
          | some oldParsed =>
            if tupGt parsed oldParsed then
              .ok (setCycle m cycle ⟨entry.version, released_date⟩)
            else .ok m

/-- `load_json_versions` from the source, with decoding and `json.loads`
already done (the claims under test concern the reduction to the per-cycle
map, which starts from the decoded list of entries). -/
def load_json_versions (entries : List Entry) : Except Unit Cycles :=
  entries.foldlM loadStep emptyCycles

example : convertDate "2025/12/17 00:00:00".data = some "2025-12-17".data := by decide
example : convertDate "2025/2/3 7:5:9".data = some "2025-02-03".data := by decide
example : convertDate "2025/02/30 00:00:00".data = none := by decide
example : convertDate "2024/02/29 00:00:00".data = some "2024-02-29".data := by decide
example : convertDate "2025-12-17 00:00:00".data = none := by decide
example : convertDate "2025/12/17 00:00:00x".data = none := by decide

/-! ### Document parsing

`parse_md_releases` scans the document with
`re.compile(r"^  - releaseCycle: \"([^\"]+)\".*?(?=\n  - releaseCycle:|\n---)", re.M | re.S)`
via `finditer`: at each position where `^` holds (start of string or after a
newline) the pattern is tried; on failure the scan advances one character, on
success it resumes at the match's end (the lookahead is zero-width).  The
lazy `.*?` makes each match extend to the nearest position where one of the
two lookahead literals starts. -/

/-- The literal head of the block pattern: `  - releaseCycle: "`. -/
def blockHead : List Char := "  - releaseCycle: \"".data

/-- The first lookahead literal, `\n  - releaseCycle:`. -/
def lookNext : List Char := "\n  - releaseCycle:".data

/-- The second lookahead literal, `\n---`. -/
def lookSep : List Char := "\n---".data

/-- Python's `in` on strings: substring containment. -/
def containsSub (pat : List Char) : List Char → Bool
  | [] => pat.isEmpty
  | s@(_ :: rest) => pat.isPrefixOf s || containsSub pat rest

/-- Positions at which `pat` occurs in the scanned string, counting from `i`. -/
def occsFrom (pat : List Char) (i : Nat) : List Char → List Nat
  | [] => if pat.isEmpty then [i] else []
  | s@(_ :: rest) => (if pat.isPrefixOf s then [i] else []) ++ occsFrom pat (i + 1) rest

/-- All positions at which `pat` occurs in `s`. -/
def occs (pat s : List Char) : List Nat := occsFrom pat 0 s

/-- Python `str.strip()` (ASCII whitespace). -/
def pyStrip (s : List Char) : List Char :=
  ((s.dropWhile isPySpace).reverse.dropWhile isPySpace).reverse

/-- Python `str.strip('"')`: drop every leading and trailing quote. -/
def stripQuotes (s : List Char) : List Char :=
  ((s.dropWhile (· = '"')).reverse.dropWhile (· = '"')).reverse

/-- The nested `extract` of `parse_md_releases`:
`re.search(rf"    {field}: (.+)", text)` — the leftmost occurrence of the
key followed by at least one non-newline character; the group is the
greedy run up to the end of that line. -/
def findExtract (key : List Char) : List Char → Option (List Char)
  | [] => none
  | s@(_ :: rest) =>
    if key.isPrefixOf s then
      let grp := (s.drop key.length).takeWhile (· ≠ '\n')
      if grp.isEmpty then findExtract key rest else some grp
    else findExtract key rest

/-- `extract(field, text)` from the source: the found group, `.strip()`-ed
then `.strip('"')`-ed. -/
def extractField (key text : List Char) : Option (List Char) :=
  (findExtract key text).map (fun g => stripQuotes (pyStrip g))

/-- The key `    latest: ` of the `extract` regex. -/
def latKey : List Char := "    latest: ".data

/-- The key `    latestReleaseDate: ` of the `extract` regex (also the
group-1 text of the `latestReleaseDate` substitution). -/
def dateKey : List Char := "    latestReleaseDate: ".data

/-- The membership-test string `    latestReleaseDate:` of `apply_updates`. -/
def dateKeyCheck : List Char := "    latestReleaseDate:".data

/-- `    latest: "` — the fixed text opening every match of the two
`latest`-substitution patterns. -/
def latKeyQ : List Char := "    latest: \"".data

/-- Least offset at which one of the two lookahead literals starts, if any:
the extent of the lazy `.*?`. -/
def findTerm : List Char → Option Nat
  | [] => none
  | s@(_ :: rest) =>
    if lookNext.isPrefixOf s || lookSep.isPrefixOf s then some 0
    else (findTerm rest).map (· + 1)

/-- Attempt of the block pattern at the head of `s` (the `^` condition is
checked by the caller): on success, the captured cycle and the match
length. -/
def matchRelAt (s : List Char) : Option (List Char × Nat) :=
  if blockHead.isPrefixOf s then
    let t := s.drop blockHead.length
    let cyc := t.takeWhile (· ≠ '"')
    if cyc.isEmpty then none
    else if (t.drop cyc.length).isEmpty then none
    else
      let bodyStart := blockHead.length + cyc.length + 1
      match findTerm (s.drop bodyStart) with
      | none => none
      | some k => some (cyc, bodyStart + k)
  else none

/-- One parsed block: the dict `parse_md_releases` appends per match
(`releaseCycle`, `latest`, `latestReleaseDate`, `_start`, `_end`, `_text`). -/
structure Release where
  releaseCycle : List Char
  latest : Option (List Char)
  latestReleaseDate : Option (List Char)
  start : Nat
  stop : Nat
  text : List Char
deriving DecidableEq

/-- Build the block dict for a match at absolute position `pos` of length `n`. -/
def mkRelease (pos n : Nat) (cyc text : List Char) : Release :=
  { releaseCycle := cyc
    latest := extractField latKey text
    latestReleaseDate := extractField dateKey text
    start := pos
    stop := pos + n
    text := text }

/-- The `finditer` scan.  `skip` counts characters still to pass over from a
previous match, `bol` says whether `^` holds at `pos` (start of string or
previous character a newline), `pos` is the absolute position of the head
of the fourth argument. -/
def scanMd : Nat → Bool → Nat → List Char → List Release
  | _, _, _, [] => []
  | k + 1, _, pos, c :: rest => scanMd k (c = '\n') (pos + 1) rest
  | 0, bol, pos, s@(c :: rest) =>
    if bol then
      match matchRelAt s with
      | some (cyc, n) =>
        mkRelease pos n cyc (s.take n) :: scanMd (n - 1) (c = '\n') (pos + 1) rest
      | none => scanMd 0 (c = '\n') (pos + 1) rest
    else scanMd 0 (c = '\n') (pos + 1) rest

/-- `parse_md_releases` from the source. -/
def parse_md_releases (content : List Char) : List Release :=
  scanMd 0 true 0 content

example :
    parse_md_releases
      "  - releaseCycle: \"6.3\"\n    latest: \"6.3.2\"\n    latestReleaseDate: 2025-11-01\n---\n".data
      = [{ releaseCycle := "6.3".data
           latest := some "6.3.2".data
           latestReleaseDate := some "2025-11-01".data
           start := 0
           stop := 77
           text := "  - releaseCycle: \"6.3\"\n    latest: \"6.3.2\"\n    latestReleaseDate: 2025-11-01".data }] := by
  decide

example :
    (parse_md_releases
      "x\n  - releaseCycle: \"6.3\"\n    latest: \"6.3.2\"\n  - releaseCycle: \"6.1\"\n    latest: \"6.1.5\"\n---\n".data).map
      (fun r => (r.releaseCycle, r.latest, r.start, r.stop))
      = [("6.3".data, some "6.3.2".data, 2, 45), ("6.1".data, some "6.1.5".data, 46, 89)] := by
  decide

example : parse_md_releases "  - releaseCycle: \"6.3\"\n    latest: \"6.3.2\"".data = [] := by
  decide

/-! ### The updater

`apply_updates` walks the blocks in reverse document order.  Its three
`re.sub` calls are modelled by left-to-right scanners that replace every
match and resume after the matched original text, exactly as `re.sub`
does. -/

/-- Attempt of `    latest: "[^"]*"` at the head of `s`: the quoted value
and the match length. -/
def matchLatestAt (s : List Char) : Option (List Char × Nat) :=
  if latKeyQ.isPrefixOf s then
    let t := s.drop latKeyQ.length
    let old := t.takeWhile (· ≠ '"')
    if (t.drop old.length).isEmpty then none
    else some (old, latKeyQ.length + old.length + 1)
  else none

/-- Scanner of `re.sub(r'(    latest: )"[^"]*"', rf'\g<1>"{v}"', s)`. -/
def goSubLatest (v : List Char) : Nat → List Char → List Char
  | k + 1, _ :: rest => goSubLatest v k rest
  | _, [] => []
  | 0, s@(c :: rest) =>
    match matchLatestAt s with
    | some (_, n) => latKeyQ ++ v ++ '"' :: goSubLatest v (n - 1) rest
    | none => c :: goSubLatest v 0 rest

/-- The first substitution of `apply_updates`: rewrite every quoted
`latest` value to `v`. -/
def subLatest (v s : List Char) : List Char := goSubLatest v 0 s

/-- Scanner of
`re.sub(r'(    latest: "[^"]*")', rf'\1\n    latestReleaseDate: {d}', s)`. -/
def goInsDate (d : List Char) : Nat → List Char → List Char
  | k + 1, _ :: rest => goInsDate d k rest
  | _, [] => []
  | 0, s@(c :: rest) =>
    match matchLatestAt s with
    | some (old, n) =>
      latKeyQ ++ old ++ '"' :: '\n' :: (dateKey ++ d) ++ goInsDate d (n - 1) rest
    | none => c :: goInsDate d 0 rest

/-- The insertion branch of `apply_updates`: append a
`    latestReleaseDate: d` line after every `latest` line. -/
def insDate (d s : List Char) : List Char := goInsDate d 0 s

/-- Attempt of `(    latestReleaseDate: )\S+` at the head of `s`. -/
def matchDateAt (s : List Char) : Option Nat :=
  if dateKey.isPrefixOf s then
    let run := (s.drop dateKey.length).takeWhile (fun c => !isPySpace c)
    if run.isEmpty then none else some (dateKey.length + run.length)
  else none

/-- Scanner of `re.sub(r"(    latestReleaseDate: )\S+", rf"\g<1>{d}", s)`. -/
def goSubDate (d : List Char) : Nat → List Char → List Char
  | k + 1, _ :: rest => goSubDate d k rest
  | _, [] => []
  | 0, s@(c :: rest) =>
    match matchDateAt s with
    | some n => dateKey ++ d ++ goSubDate d (n - 1) rest
    | none => c :: goSubDate d 0 rest

/-- The replacement branch of `apply_updates`: rewrite every
`latestReleaseDate` value to `d`. -/
def subDate (d s : List Char) : List Char := goSubDate d 0 s

/-- The change line `f"{cycle}: {current_version} -> {new_version}"`. -/
def changeDesc (cycle cur new : List Char) : List Char :=
  cycle ++ ": ".data ++ cur ++ " -> ".data ++ new

/-- `current_version = release["latest"] or ""` of `apply_updates`. -/
def currentVersionOf (r : Release) : List Char :=
  match r.latest with
  | none => []
  | some s => s

/-- `current_parsed = parse_version(current_version) if current_version else (0, 0, 0, 0)`. -/
def currentParsedOf (r : Release) : Option Version :=
  if (currentVersionOf r).isEmpty then some (0, 0, 0, 0)
  else parse_version (currentVersionOf r)

/-- The rewritten block text of a qualifying block: substitute the `latest`
value, then substitute the `latestReleaseDate` value if the block contains
that field, else insert the missing line. -/
def updatedBlockText (e : CycleEntry) (block : List Char) : List Char :=
  let ub1 := subLatest e.version block
  if containsSub dateKeyCheck ub1 then subDate e.date ub1 else insDate e.date ub1

/-- The per-block decision of `apply_updates`' loop body: `ok none` when the
block is skipped, `ok (some (newBlockText, changeLine))` when it qualifies,
and `error` for the `TypeError` that Python raises in
`new_parsed > current_parsed` when `current_parsed` is `None` (a present
but unparseable `latest` value). -/
def stepDecision (cycles : Cycles) (r : Release) : Except Unit (Option (List Char × List Char)) :=
  match cycles r.releaseCycle with
  | none => .ok none
  | some e =>
    match parse_version e.version with
    | none => .ok none
    | some np =>
      match currentParsedOf r with
      | none => .error ()
      | some cp =>
        if tupGt np cp then
          .ok (some (updatedBlockText e r.text, changeDesc r.releaseCycle (currentVersionOf r) e.version))
        else .ok none

/-- One iteration of `for release in reversed(releases)`: splice the
rewritten block back at its recorded offsets and append the change line. -/
def applyStep (cycles : Cycles) (st : List Char × List (List Char)) (r : Release) :
    Except Unit (List Char × List (List Char)) :=
  match stepDecision cycles r with
  | .error e => .error e
  | .ok none => .ok st
  | .ok (some (nb, cd)) => .ok (st.1.take r.start ++ nb ++ st.1.drop r.stop, st.2 ++ [cd])

/-- `apply_updates` from the source: fold the loop body over the blocks in
reverse order, starting from the input content and an empty change list. -/
def apply_updates (content : List Char) (releases : List Release) (cycles : Cycles) :
    Except Unit (List Char × List (List Char)) :=
  releases.reverse.foldlM (applyStep cycles) (content, [])

example :
    apply_updates
      "  - releaseCycle: \"6.3\"\n    latest: \"6.3.2\"\n    latestReleaseDate: 2025-11-01\n---\n".data
      (parse_md_releases
        "  - releaseCycle: \"6.3\"\n    latest: \"6.3.2\"\n    latestReleaseDate: 2025-11-01\n---\n".data)
      (setCycle emptyCycles "6.3".data ⟨"6.3.3-c842".data, "2025-12-17".data⟩)
      = .ok ("  - releaseCycle: \"6.3\"\n    latest: \"6.3.3-c842\"\n    latestReleaseDate: 2025-12-17\n---\n".data,
             ["6.3: 6.3.2 -> 6.3.3-c842".data]) := by
  rfl

example : parse_version "6.3.3-c842".data = some (6, 3, 3, 842) := by decide
example : parse_version "6.1.5".data = some (6, 1, 5, 0) := by decide
example : parse_version "not-a-version".data = none := by decide
example : parse_version "6.3.3\n\n".data = none := by decide
example : parse_version "6.3.3-c5\n".data = some (6, 3, 3, 5) := by decide
example : parse_version "6.3.3-c".data = none := by decide
example : get_release_cycle "6.3.3-c842".data = some "6.3".data := by decide
example : tupGt (6, 3, 3, 842) (6, 3, 3, 0) = true := by decide
example : tupGt (6, 3, 3, 0) (6, 3, 2, 999) = true := by decide

/-! ### Concrete inputs used by counterexamples and witnesses -/

/-- A feed map with one cycle, `6.3 ↦ (6.3.3, 2025-01-01)`. -/
def exFeed : Cycles := setCycle emptyCycles "6.3".data ⟨"6.3.3".data, "2025-01-01".data⟩

/-- A document whose single block has no `latest` field. -/
def noLatestDoc : List Char := "  - releaseCycle: \"6.3\"\n    link: https://x\n---\n".data

/-- A document whose single block has an unparseable `latest` value. -/
def badLatestDoc : List Char := "  - releaseCycle: \"6.3\"\n    latest: \"abc\"\n---\n".data

/-- A document whose single block has a `latestReleaseDate` field but no
`latest` field. -/
def dateOnlyDoc : List Char :=
  "  - releaseCycle: \"6.3\"\n    latestReleaseDate: 2020-01-01\n---\n".data

/-- What `apply_updates` turns `dateOnlyDoc` into under `exFeed`. -/
def dateOnlyDocOut : List Char :=
  "  - releaseCycle: \"6.3\"\n    latestReleaseDate: 2025-01-01\n---\n".data

/-- A document whose final (and only) release-cycle block is not followed by
another `releaseCycle` line or a `---` line. -/
def unterminatedDoc : List Char := "  - releaseCycle: \"6.3\"\n    latest: \"6.3.2\"".data

/-! ### Claim C1 -/

/-- C1 (code bug): the Updater is not idempotent.  On `noLatestDoc` — one
block with no `latest` field, whose cycle the feed maps to the parseable
version `6.3.3` — `apply_updates` returns the document text unchanged yet
records the change `6.3:  -> 6.3.3`.  The second run of the pipeline is
therefore the very same call with the very same arguments and again returns
this non-empty change list, contradicting the claimed idempotence (zero
changes on the second run). -/
theorem c1_second_run_reports_changes :
    apply_updates noLatestDoc (parse_md_releases noLatestDoc) exFeed
      = .ok (noLatestDoc, ["6.3:  -> 6.3.3".data])
    ∧ ("6.3:  -> 6.3.3".data : List Char) ≠ [] :=
  ⟨by rfl, by decide⟩

/-! ### Claim C2 -/

/-- C2 (code bug): `apply_updates` raises for a block whose recorded
`latest` value is present but unparseable.  On `badLatestDoc` the block's
`latest` is `abc`, so `current_parsed` is `None`, and the comparison
`new_parsed > current_parsed` raises `TypeError` instead of skipping the
block — the run aborts, contradicting the claim that such comparisons are
skipped locally and never fatal. -/
theorem c2_unparseable_latest_raises :
    apply_updates badLatestDoc (parse_md_releases badLatestDoc) exFeed = .error () := by
  rfl

/-! ### Claim C3 -/

/-- C3 counterexample: a string with a single trailing newline after a full
grammar match is accepted by `parse_version` (Python's `$` also matches
just before a final newline), refuting the claim that any trailing
character — including a single trailing newline — yields no value. -/
theorem c3_trailing_newline_accepted :
    parse_version "6.3.3\n".data = some (6, 3, 3, 0) := by
  decide

/-! ### Claim C4 -/

/-- C4 counterexample: `unterminatedDoc` starts with a
`  - releaseCycle: "<cycle>"` line, yet `parse_md_releases` returns no
block for it, because the block pattern's lookahead requires a following
`\n  - releaseCycle:` or `\n---` — a final block not followed by either
terminator is dropped, refuting the claim that such a final block is
returned. -/
theorem c4_final_block_dropped :
    parse_md_releases unterminatedDoc = [] ∧ blockHead.isPrefixOf unterminatedDoc = true := by
  exact ⟨by rfl, by decide⟩

/-! ### Claim C10 -/

/-- C10 counterexample: a block with no `latest` field at all but with a
`latestReleaseDate` field, whose cycle the feed maps to a parseable
version, is *not* spliced back identical to the original: the
`latestReleaseDate` substitution still rewrites its date value, so the
returned document text differs from the input. -/
theorem c10_date_block_rewritten :
    apply_updates dateOnlyDoc (parse_md_releases dateOnlyDoc) exFeed
      = .ok (dateOnlyDocOut, ["6.3:  -> 6.3.3".data])
    ∧ dateOnlyDocOut ≠ dateOnlyDoc :=
  ⟨by rfl, by decide⟩

/-! ### Claim C5 -/

/-- C5: no-regression.  For a block whose release cycle is in the feed map,
if the feed's version parses to a tuple that is not strictly greater than
the block's current parsed version, the loop body of `apply_updates`
(`applyStep`, which `apply_updates` folds over the blocks in reverse order)
returns its state unchanged: the document text is untouched for that block
and no change description is recorded for it. -/
theorem c5_no_regression (cycles : Cycles) (st : List Char × List (List Char)) (r : Release)
    (e : CycleEntry) (np cp : Version)
    (hc : cycles r.releaseCycle = some e)
    (hnp : parse_version e.version = some np)
    (hcp : currentParsedOf r = some cp)
    (hle : tupGt np cp = false) :
    applyStep cycles st r = .ok st := by
  simp only [applyStep, stepDecision, hc, hnp, hcp, hle, Bool.false_eq_true, if_false]

/-- A block whose `latest` already equals the feed's `6.3` version. -/
def relEq : Release :=
  { releaseCycle := "6.3".data
    latest := some "6.3.3".data
    latestReleaseDate := none
    start := 0
    stop := 43
    text := "  - releaseCycle: \"6.3\"\n    latest: \"6.3.3\"".data }

/-- Witness for C5 at a concrete block whose version equals the feed's. -/
theorem c5_no_regression_witness :
    applyStep exFeed ("doc".data, []) relEq = .ok ("doc".data, []) :=
  c5_no_regression exFeed ("doc".data, []) relEq ⟨"6.3.3".data, "2025-01-01".data⟩
    (6, 3, 3, 0) (6, 3, 3, 0) (by decide) (by decide) (by decide) (by decide)

/-! ### Claim C9 -/

/-- The change line a block contributes, if any.  It depends only on the
block and the feed map, not on the evolving document text. -/
def changeOf (cycles : Cycles) (r : Release) : Option (List Char) :=
  match stepDecision cycles r with
  | .ok (some (_, cd)) => some cd
  | _ => none

/-- Characterization of the fold of `applyStep` over any block list: the
final change list extends the initial one by exactly the qualifying blocks'
change lines, in processing order, and if no block qualifies the document
text is returned unchanged. -/
theorem foldChanges (cycles : Cycles) (l : List Release) :
    ∀ (st : List Char × List (List Char)) (c' : List Char) (ch' : List (List Char)),
      l.foldlM (applyStep cycles) st = .ok (c', ch') →
      ch' = st.2 ++ l.filterMap (changeOf cycles)
        ∧ (l.filterMap (changeOf cycles) = [] → c' = st.1) := by
  induction l with
  | nil =>
    intro st c' ch' h
    have hst : st = (c', ch') := by
      simpa [List.foldlM_nil, pure, Except.pure] using h
    subst hst
    simp
  | cons r l ih =>
    intro st c' ch' h
    rw [List.foldlM_cons] at h
    cases hd : stepDecision cycles r with
    | error e =>
      rw [show applyStep cycles st r = .error e by simp [applyStep, hd]] at h
      simp only [bind, Except.bind] at h
      exact absurd h (by simp)
    | ok dec =>
      cases dec with
      | none =>
        rw [show applyStep cycles st r = .ok st by simp [applyStep, hd]] at h
        simp only [bind, Except.bind] at h
        have := ih st c' ch' h
        simpa [List.filterMap_cons, changeOf, hd] using this
      | some p =>
        rw [show applyStep cycles st r
              = .ok (st.1.take r.start ++ p.1 ++ st.1.drop r.stop, st.2 ++ [p.2]) by
            simp [applyStep, hd]] at h
        simp only [bind, Except.bind] at h
        have := ih _ c' ch' h
        refine ⟨?_, ?_⟩
        · simpa [List.filterMap_cons, changeOf, hd, List.append_assoc] using this.1
        · intro hnil
          simp [List.filterMap_cons, changeOf, hd] at hnil

/-- C9: for any input, the change list returned by `apply_updates` is
exactly the qualifying blocks' change lines in reverse document order (the
blocks are processed from the last in the document to the first), and when
no block qualifies the returned document text equals the input. -/
theorem c9_change_order (content : List Char) (releases : List Release) (cycles : Cycles)
    (c' : List Char) (ch : List (List Char))
    (h : apply_updates content releases cycles = .ok (c', ch)) :
    ch = releases.reverse.filterMap (changeOf cycles) ∧ (ch = [] → c' = content) := by
  have := foldChanges cycles releases.reverse (content, []) c' ch h
  refine ⟨by simpa using this.1, fun hnil => this.2 ?_⟩
  have : ch = releases.reverse.filterMap (changeOf cycles) := by simpa using this.1
  rw [← this]; exact hnil

/-- Witness for C9 at the end-to-end scenario document: the single change
line is the reverse-order `filterMap` of the parsed blocks, and the
(non-empty) change list matches. -/
theorem c9_change_order_witness :
    (["6.3: 6.3.2 -> 6.3.3-c842".data] : List (List Char))
      = (parse_md_releases
          "  - releaseCycle: \"6.3\"\n    latest: \"6.3.2\"\n    latestReleaseDate: 2025-11-01\n---\n".data).reverse.filterMap
          (changeOf (setCycle emptyCycles "6.3".data ⟨"6.3.3-c842".data, "2025-12-17".data⟩))
    ∧ ((["6.3: 6.3.2 -> 6.3.3-c842".data] : List (List Char)) = [] →
        "  - releaseCycle: \"6.3\"\n    latest: \"6.3.3-c842\"\n    latestReleaseDate: 2025-12-17\n---\n".data
          = "  - releaseCycle: \"6.3\"\n    latest: \"6.3.2\"\n    latestReleaseDate: 2025-11-01\n---\n".data) :=
  c9_change_order _ _ _ _ _ (by rfl)

/-! ### Claim C3, amended statement

The amended claim: `parse_version` accepts exactly the strings of the form
digits `.` digits `.` digits, optionally followed by `-c` digits, and
optionally followed by one single trailing newline (Python's `$` also
matches just before a final newline); nothing else. -/

/-- All characters of `a` are digits and the scan to the right of `a`
stops immediately: the greedy `\d+`/`\d*` run at `a ++ rest` is exactly `a`. -/
theorem takeWhile_digits_append (a rest : List Char) (ha : ∀ c ∈ a, c.isDigit = true)
    (hrest : ∀ c, rest.head? = some c → c.isDigit = false) :
    (a ++ rest).takeWhile Char.isDigit = a := by
  induction a with
  | nil =>
    cases rest with
    | nil => rfl
    | cons c t => simp [List.takeWhile_cons, hrest c rfl]
  | cons c a ih =>
    simp [List.takeWhile_cons, ha c (List.mem_cons_self c a),
      ih (fun x hx => ha x (List.mem_cons_of_mem c hx))]

/-- Companion of `takeWhile_digits_append` for the rest of the string. -/
theorem dropWhile_digits_append (a rest : List Char) (ha : ∀ c ∈ a, c.isDigit = true)
    (hrest : ∀ c, rest.head? = some c → c.isDigit = false) :
    (a ++ rest).dropWhile Char.isDigit = rest := by
  induction a with
  | nil =>
    cases rest with
    | nil => rfl
    | cons c t => simp [List.dropWhile_cons, hrest c rfl]
  | cons c a ih =>
    simp [List.dropWhile_cons, ha c (List.mem_cons_self c a),
      ih (fun x hx => ha x (List.mem_cons_of_mem c hx))]

/-- `digitRun` on a digit run followed by a non-digit (or nothing). -/
theorem digitRun_eq (a rest : List Char) (ha : ∀ c ∈ a, c.isDigit = true)
    (hrest : ∀ c, rest.head? = some c → c.isDigit = false) :
    digitRun (a ++ rest) = (a, rest) := by
  simp [digitRun, takeWhile_digits_append a rest ha hrest,
    dropWhile_digits_append a rest ha hrest]

/-- The two parts of `digitRun` rebuild the input. -/
theorem digitRun_fst_append_snd (s : List Char) : (digitRun s).1 ++ (digitRun s).2 = s := by
  simp [digitRun, List.takeWhile_append_dropWhile]

/-- Every character of `digitRun`'s first part is a digit. -/
theorem digitRun_fst_digits (s : List Char) : ∀ c ∈ (digitRun s).1, c.isDigit = true :=
  fun _ hc => List.mem_takeWhile_imp hc

/-- The first character after the digit run, if any, is not a digit. -/
theorem digitRun_snd_head (s : List Char) :
    ∀ c, (digitRun s).2.head? = some c → c.isDigit = false := by
  intro c hc
  have := List.head?_dropWhile_not Char.isDigit s
  simp only [digitRun] at hc
  rw [hc] at this
  exact this

/-- A cons cell headed by a non-digit, as `digitRun_eq` wants it. -/
theorem head_not_digit_of (ch : Char) (h : ch.isDigit = false) (t : List Char) :
    ∀ x, (ch :: t).head? = some x → x.isDigit = false := by
  intro x hx
  simp only [List.head?, Option.some.injEq] at hx
  rw [← hx]
  exact h

/-- The empty rest, as `digitRun_eq` wants it. -/
theorem head_none_not_digit :
    ∀ x, ([] : List Char).head? = some x → x.isDigit = false := by
  intro x hx
  simp at hx

/-- `endOk` accepts exactly the empty rest and a lone newline. -/
theorem endOk_iff (rest : List Char) : endOk rest = true ↔ rest = [] ∨ rest = ['\n'] := by
  simp [endOk, List.isEmpty_iff]

/-- A nonempty all-digit run: one `D` of the claim's grammar. -/
def IsDigits (l : List Char) : Prop := l ≠ [] ∧ ∀ c ∈ l, c.isDigit = true

/-- The claim's accepted grammar, written from the spec's words: the entire
string is digits `.` digits `.` digits, optionally followed by `-c` digits. -/
def SpecVersionCore (s : List Char) : Prop :=
  ∃ a b c : List Char, IsDigits a ∧ IsDigits b ∧ IsDigits c ∧
    (s = a ++ '.' :: (b ++ '.' :: c) ∨
     ∃ d : List Char, IsDigits d ∧ s = a ++ '.' :: (b ++ '.' :: (c ++ '-' :: 'c' :: d)))

/-- The amended grammar: as the claim states it, except that one single
trailing newline is also accepted. -/
def SpecVersionNL (s : List Char) : Prop :=
  SpecVersionCore s ∨ ∃ t, SpecVersionCore t ∧ s = t ++ ['\n']

/-- Evaluation of `parse_version` on a plain grammar string followed by an
accepted tail. -/
theorem parse_version_plain (a b c nl : List Char)
    (ha : IsDigits a) (hb : IsDigits b) (hc : IsDigits c)
    (hnl : nl = [] ∨ nl = ['\n']) :
    parse_version (a ++ '.' :: (b ++ '.' :: (c ++ nl)))
      = some (charsToNat a, charsToNat b, charsToNat c, 0) := by
  have hae : a.isEmpty = false := by
    cases a with
    | nil => exact absurd rfl ha.1
    | cons _ _ => rfl
  have hbe : b.isEmpty = false := by
    cases b with
    | nil => exact absurd rfl hb.1
    | cons _ _ => rfl
  have hce : c.isEmpty = false := by
    cases c with
    | nil => exact absurd rfl hc.1
    | cons _ _ => rfl
  rcases hnl with rfl | rfl <;>
  · unfold parse_version
    rw [digitRun_eq a _ ha.2 (head_not_digit_of '.' (by decide) _)]
    simp only [hae, Bool.false_eq_true, if_false]
    rw [digitRun_eq b _ hb.2 (head_not_digit_of '.' (by decide) _)]
    simp only [hbe, Bool.false_eq_true, if_false]
    first
    | rw [digitRun_eq c _ hc.2 head_none_not_digit]
    | rw [digitRun_eq c _ hc.2 (head_not_digit_of '\n' (by decide) _)]
    simp only [hce, Bool.false_eq_true, if_false]
    rfl

/-- Evaluation of `parse_version` on a grammar string with a `-c` build
suffix followed by an accepted tail. -/
theorem parse_version_build (a b c d nl : List Char)
    (ha : IsDigits a) (hb : IsDigits b) (hc : IsDigits c) (hd : IsDigits d)
    (hnl : nl = [] ∨ nl = ['\n']) :
    parse_version (a ++ '.' :: (b ++ '.' :: (c ++ '-' :: 'c' :: (d ++ nl))))
      = some (charsToNat a, charsToNat b, charsToNat c, charsToNat d) := by
  have hae : a.isEmpty = false := by
    cases a with
    | nil => exact absurd rfl ha.1
    | cons _ _ => rfl
  have hbe : b.isEmpty = false := by
    cases b with
    | nil => exact absurd rfl hb.1
    | cons _ _ => rfl
  have hce : c.isEmpty = false := by
    cases c with
    | nil => exact absurd rfl hc.1
    | cons _ _ => rfl
  have hde : d.isEmpty = false := by
    cases d with
    | nil => exact absurd rfl hd.1
    | cons _ _ => rfl
  rcases hnl with rfl | rfl <;>
  · unfold parse_version
    rw [digitRun_eq a _ ha.2 (head_not_digit_of '.' (by decide) _)]
    simp only [hae, Bool.false_eq_true, if_false]
    rw [digitRun_eq b _ hb.2 (head_not_digit_of '.' (by decide) _)]
    simp only [hbe, Bool.false_eq_true, if_false]
    rw [digitRun_eq c _ hc.2 (head_not_digit_of '-' (by decide) _)]
    simp only [hce, Bool.false_eq_true, if_false]
    first
    | rw [digitRun_eq d _ hd.2 head_none_not_digit]
    | rw [digitRun_eq d _ hd.2 (head_not_digit_of '\n' (by decide) _)]
    simp only [hde, Bool.false_eq_true, if_false]
    rfl



theorem ne_nil_of_not_isEmpty {l : List Char} (h : ¬ l.isEmpty = true) : l ≠ [] := by
  cases l with
  | nil => exact absurd rfl h
  | cons _ _ => simp

theorem specNL_assemble (a b c r5 : List Char)
    (ha : IsDigits a) (hb : IsDigits b) (hc : IsDigits c)
    (h5 : r5 = [] ∨ r5 = ['\n']) :
    SpecVersionNL (a ++ '.' :: (b ++ '.' :: (c ++ r5))) := by
  rcases h5 with rfl | rfl
  · exact Or.inl ⟨a, b, c, ha, hb, hc, Or.inl (by simp)⟩
  · exact Or.inr ⟨a ++ '.' :: (b ++ '.' :: c), ⟨a, b, c, ha, hb, hc, Or.inl rfl⟩, by simp⟩

theorem specNL_assemble_build (a b c d r7 : List Char)
    (ha : IsDigits a) (hb : IsDigits b) (hc : IsDigits c) (hd : IsDigits d)
    (h7 : r7 = [] ∨ r7 = ['\n']) :
    SpecVersionNL (a ++ '.' :: (b ++ '.' :: (c ++ '-' :: 'c' :: (d ++ r7)))) := by
  rcases h7 with rfl | rfl
  · exact Or.inl ⟨a, b, c, ha, hb, hc, Or.inr ⟨d, hd, by simp⟩⟩
  · exact Or.inr ⟨a ++ '.' :: (b ++ '.' :: (c ++ '-' :: 'c' :: d)),
      ⟨a, b, c, ha, hb, hc, Or.inr ⟨d, hd, rfl⟩⟩, by simp⟩

theorem spec_of_parse_version (s : List Char) (h : (parse_version s).isSome = true) :
    SpecVersionNL s := by
  unfold parse_version at h
  split at h
  next a r1 heq =>
  split at h
  next hae => simp at h
  next hae =>
  split at h
  next rr r2 =>
    split at h
    next b r3 heqB =>
    split at h
    next hbe => simp at h
    next hbe =>
    split at h
    next rr2 r4 =>
      split at h
      next c r5 heqC =>
      split at h
      next hce => simp at h
      next hce =>
      split at h
      next rr3 r6 =>
        -- build-suffix branch: r5 = '-' :: 'c' :: r6
        split at h
        next d r7 heqD =>
        split at h
        next hde => simp at h
        next hde =>
        split at h
        next hend =>
          have hs := digitRun_fst_append_snd s
          rw [heq] at hs
          have hr2 := digitRun_fst_append_snd r2
          rw [heqB] at hr2
          have hr4 := digitRun_fst_append_snd r4
          rw [heqC] at hr4
          have hr6 := digitRun_fst_append_snd r6
          rw [heqD] at hr6
          have hda := digitRun_fst_digits s
          rw [heq] at hda
          have hdb := digitRun_fst_digits r2
          rw [heqB] at hdb
          have hdc := digitRun_fst_digits r4
          rw [heqC] at hdc
          have hdd := digitRun_fst_digits r6
          rw [heqD] at hdd
          rw [← hs, ← hr2, ← hr4, ← hr6]
          exact specNL_assemble_build a b c d r7
            ⟨ne_nil_of_not_isEmpty hae, hda⟩ ⟨ne_nil_of_not_isEmpty hbe, hdb⟩
            ⟨ne_nil_of_not_isEmpty hce, hdc⟩ ⟨ne_nil_of_not_isEmpty hde, hdd⟩
            ((endOk_iff r7).mp hend)
        next hend => simp at h
      next hno =>
        -- plain branch: r5 is not '-' :: 'c' :: _
        split at h
        next hend =>
          have hs := digitRun_fst_append_snd s
          rw [heq] at hs
          have hr2 := digitRun_fst_append_snd r2
          rw [heqB] at hr2
          have hr4 := digitRun_fst_append_snd r4
          rw [heqC] at hr4
          have hda := digitRun_fst_digits s
          rw [heq] at hda
          have hdb := digitRun_fst_digits r2
          rw [heqB] at hdb
          have hdc := digitRun_fst_digits r4
          rw [heqC] at hdc
          rw [← hs, ← hr2, ← hr4]
          exact specNL_assemble a b c r5
            ⟨ne_nil_of_not_isEmpty hae, hda⟩ ⟨ne_nil_of_not_isEmpty hbe, hdb⟩
            ⟨ne_nil_of_not_isEmpty hce, hdc⟩ ((endOk_iff r5).mp hend)
        next hend => simp at h
    next hno => simp at h
  next hno => simp at h


/-- C3 (amended claim): `parse_version` is end-anchored up to one newline —
it yields a value exactly when the entire string is digits `.` digits `.`
digits, optionally followed by `-c` digits, optionally followed by one
single trailing newline (which Python's `$` accepts); any other trailing
characters yield no value. -/
theorem c3_parse_version_grammar (s : List Char) :
    (parse_version s).isSome = true ↔ SpecVersionNL s := by
  constructor
  · exact spec_of_parse_version s
  · intro h
    rcases h with hcore | ⟨t, hcore, rfl⟩
    · obtain ⟨a, b, c, ha, hb, hc, hshape | ⟨d, hd, hshape⟩⟩ := hcore
      · subst hshape
        have := parse_version_plain a b c [] ha hb hc (Or.inl rfl)
        simp only [List.append_nil] at this
        simp [this]
      · subst hshape
        have := parse_version_build a b c d [] ha hb hc hd (Or.inl rfl)
        simp only [List.append_nil] at this
        simp [this]
    · obtain ⟨a, b, c, ha, hb, hc, hshape | ⟨d, hd, hshape⟩⟩ := hcore
      · subst hshape
        have := parse_version_plain a b c ['\n'] ha hb hc (Or.inr rfl)
        simp only [List.append_assoc, List.cons_append] at this ⊢
        simp [this]
      · subst hshape
        have := parse_version_build a b c d ['\n'] ha hb hc hd (Or.inr rfl)
        simp only [List.append_assoc, List.cons_append] at this ⊢
        simp [this]

/-- Witness for C3 at a concrete accepted input. -/
theorem c3_parse_version_grammar_witness :
    (parse_version "6.3.3-c842\n".data).isSome = true ↔ SpecVersionNL "6.3.3-c842\n".data :=
  c3_parse_version_grammar _



/-- A prefix of a longer literal is a prefix of the string. -/
theorem prefix_of_longer {p q s : List Char} (h : (p ++ q).isPrefixOf s = true) :
    p.isPrefixOf s = true := by
  rw [List.isPrefixOf_iff_prefix] at h ⊢
  exact (List.prefix_append p q).trans h

/-- No `latest`-pattern match where its fixed opening text is absent. -/
theorem matchLatestAt_none {s : List Char} (h : latKeyQ.isPrefixOf s = false) :
    matchLatestAt s = none := by
  unfold matchLatestAt
  rw [h]
  rfl

/-- `re.sub` on the `latest` pattern is the identity on a string with no
occurrence of the pattern opening `    latest: "`. -/
theorem subLatest_id (v : List Char) :
    ∀ s : List Char, containsSub latKeyQ s = false → subLatest v s = s := by
  intro s
  induction s with
  | nil => intro _; rfl
  | cons c rest ih =>
    intro h
    unfold containsSub at h
    rw [Bool.or_eq_false_iff] at h
    show goSubLatest v 0 (c :: rest) = c :: rest
    unfold goSubLatest
    rw [matchLatestAt_none h.1]
    exact congrArg (c :: ·) (ih h.2)

/-- The insertion `re.sub` is the identity on a string with no occurrence
of `    latest: "`. -/
theorem insDate_id (d : List Char) :
    ∀ s : List Char, containsSub latKeyQ s = false → insDate d s = s := by
  intro s
  induction s with
  | nil => intro _; rfl
  | cons c rest ih =>
    intro h
    unfold containsSub at h
    rw [Bool.or_eq_false_iff] at h
    show goInsDate d 0 (c :: rest) = c :: rest
    unfold goInsDate
    rw [matchLatestAt_none h.1]
    exact congrArg (c :: ·) (ih h.2)

/-- A block in which `extract` finds no `latest` field contains no
occurrence of `    latest: "` either. -/
theorem no_latKeyQ_of_extract_none :
    ∀ t : List Char, findExtract latKey t = none → containsSub latKeyQ t = false := by
  intro t
  induction t with
  | nil => intro _; rfl
  | cons c rest ih =>
    intro h
    unfold findExtract at h
    unfold containsSub
    rw [Bool.or_eq_false_iff]
    by_cases hp : latKey.isPrefixOf (c :: rest) = true
    · rw [if_pos hp] at h
      dsimp only [] at h
      split at h
      next hgrp =>
        refine ⟨?_, ih h⟩
        -- the group is empty, so the 13th character is absent or a newline,
        -- never the quote that latKeyQ requires
        by_contra hq
        rw [Bool.not_eq_false] at hq
        rw [List.isPrefixOf_iff_prefix] at hq
        obtain ⟨u, hu⟩ := hq
        have hdrop : (c :: rest).drop latKey.length = '"' :: u := by
          rw [← hu]
          show ((latKey ++ ['"']) ++ u).drop latKey.length = _
          rw [List.append_assoc, List.drop_left]
          rfl
        rw [hdrop] at hgrp
        simp [List.takeWhile_cons] at hgrp
      next hgrp => exact absurd h (by simp)
    · rw [if_neg hp] at h
      rw [Bool.not_eq_true] at hp
      refine ⟨?_, ih h⟩
      by_contra hq
      rw [Bool.not_eq_false] at hq
      exact absurd (prefix_of_longer (p := latKey) (q := ['"']) hq) (by rw [hp]; simp)

/-- Splicing a slice back at its own offsets reproduces the string. -/
theorem splice_self (content : List Char) (a b : Nat) (hab : a ≤ b) :
    content.take a ++ ((content.drop a).take (b - a) ++ content.drop b) = content := by
  have hdb : content.drop b = (content.drop a).drop (b - a) := by
    rw [List.drop_drop]
    congr 1
    omega
  rw [hdb, List.take_append_drop, List.take_append_drop]

/-- C10 (amended claim): for every block that contains no `latest` field at
all and no `    latestReleaseDate:` occurrence, whose release cycle maps in
the feed to a parseable version strictly greater than the default tuple
`(0,0,0,0)`, the loop body of `apply_updates` appends a change description
for the block while splicing back block text identical to the original —
the document text is returned unchanged even though the change list grows.
(The amendment adds the `latestReleaseDate` proviso: without it the date
substitution can still rewrite the block, see the counterexample.) -/
theorem c10_no_latest_no_text_change (cycles : Cycles) (content : List Char)
    (changes : List (List Char)) (r : Release) (e : CycleEntry) (np : Version)
    (hlat : r.latest = none)
    (hnolat : findExtract latKey r.text = none)
    (hnodate : containsSub dateKeyCheck r.text = false)
    (hc : cycles r.releaseCycle = some e)
    (hnp : parse_version e.version = some np)
    (hgt : tupGt np (0, 0, 0, 0) = true)
    (htext : r.text = (content.drop r.start).take (r.stop - r.start))
    (hse : r.start ≤ r.stop) :
    applyStep cycles (content, changes) r
      = .ok (content, changes ++ [changeDesc r.releaseCycle [] e.version]) := by
  have hcv : currentVersionOf r = [] := by simp [currentVersionOf, hlat]
  have hcp : currentParsedOf r = some (0, 0, 0, 0) := by simp [currentParsedOf, hcv]
  have hnolatQ : containsSub latKeyQ r.text = false := no_latKeyQ_of_extract_none _ hnolat
  have hub1 : subLatest e.version r.text = r.text := subLatest_id _ _ hnolatQ
  have hub2 : updatedBlockText e r.text = r.text := by
    unfold updatedBlockText
    dsimp only []
    rw [hub1, hnodate]
    simp only [Bool.false_eq_true, if_false]
    exact insDate_id _ _ hnolatQ
  have hstep : stepDecision cycles r
      = .ok (some (r.text, changeDesc r.releaseCycle [] e.version)) := by
    unfold stepDecision
    rw [hc]
    dsimp only []
    rw [hnp]
    dsimp only []
    rw [hcp]
    dsimp only []
    simp only [hgt, if_true, hub2, hcv]
  have hspl : content.take r.start ++ r.text ++ content.drop r.stop = content := by
    rw [htext, List.append_assoc]
    exact splice_self content r.start r.stop hse
  unfold applyStep
  rw [hstep]
  dsimp only []
  rw [hspl]



/-- The single block of `noLatestDoc` as `parse_md_releases` returns it. -/
def relNoLatest : Release :=
  { releaseCycle := "6.3".data
    latest := none
    latestReleaseDate := none
    start := 0
    stop := 43
    text := "  - releaseCycle: \"6.3\"\n    link: https://x".data }

/-- Witness for C10 at the `noLatestDoc` block. -/
theorem c10_no_latest_no_text_change_witness :
    applyStep exFeed (noLatestDoc, []) relNoLatest
      = .ok (noLatestDoc, [changeDesc "6.3".data [] "6.3.3".data]) :=
  c10_no_latest_no_text_change exFeed noLatestDoc [] relNoLatest
    ⟨"6.3.3".data, "2025-01-01".data⟩ (6, 3, 3, 0)
    (by rfl) (by rfl) (by decide) (by decide) (by rfl) (by decide) (by decide) (by decide)



/-- Decompose a string at a Boolean prefix. -/
theorem eq_append_drop_of_isPrefixOf {p s : List Char} (h : p.isPrefixOf s = true) :
    s = p ++ s.drop p.length := by
  rw [List.isPrefixOf_iff_prefix] at h
  obtain ⟨u, hu⟩ := h
  subst hu
  rw [List.drop_left]

/-- `findTerm` returns the least offset of a lookahead-literal occurrence. -/
theorem findTerm_spec : ∀ (u : List Char) (k : Nat), findTerm u = some k →
    k < u.length
    ∧ (lookNext.isPrefixOf (u.drop k) || lookSep.isPrefixOf (u.drop k)) = true
    ∧ ∀ j, j < k → (lookNext.isPrefixOf (u.drop j) || lookSep.isPrefixOf (u.drop j)) = false := by
  intro u
  induction u with
  | nil => intro k h; simp [findTerm] at h
  | cons c rest ih =>
    intro k h
    unfold findTerm at h
    by_cases ht : (lookNext.isPrefixOf (c :: rest) || lookSep.isPrefixOf (c :: rest)) = true
    · rw [if_pos ht] at h
      have hk : k = 0 := by
        have := h
        injection this with h0
        omega
      subst hk
      exact ⟨by simp, ht, fun j hj => absurd hj (by omega)⟩
    · rw [if_neg ht] at h
      cases hf : findTerm rest with
      | none => rw [hf] at h; simp at h
      | some kp =>
        rw [hf] at h
        have hk : kp + 1 = k := by
          simpa using h
        subst hk
        obtain ⟨hlt, hterm, hmin⟩ := ih kp hf
        refine ⟨by simp only [List.length_cons]; omega, hterm, ?_⟩
        intro j hj
        cases j with
        | zero =>
          simp only [Bool.not_eq_true] at ht
          exact ht
        | succ jp => exact hmin jp (by omega)

/-- What a successful block-pattern match guarantees: the block opens with
the releaseCycle line, ends right before a terminator, and no terminator
starts between the cycle field and the match end. -/
theorem matchRelAt_spec {s cyc : List Char} {n : Nat}
    (h : matchRelAt s = some (cyc, n)) :
    blockHead.length + cyc.length + 1 ≤ n ∧ cyc ≠ [] ∧ n ≤ s.length
    ∧ (blockHead ++ (cyc ++ ['"'])).isPrefixOf s = true
    ∧ (lookNext.isPrefixOf (s.drop n) || lookSep.isPrefixOf (s.drop n)) = true
    ∧ ∀ j, blockHead.length + cyc.length + 1 ≤ j → j < n →
        (lookNext.isPrefixOf (s.drop j) || lookSep.isPrefixOf (s.drop j)) = false := by
  unfold matchRelAt at h
  split at h
  next hbh =>
    dsimp only [] at h
    split at h
    next hcyc => exact absurd h (by simp)
    next hcyc =>
      split at h
      next hq => exact absurd h (by simp)
      next hq =>
        split at h
        next hft => exact absurd h (by simp)
        next kk hft =>
          rw [Option.some.injEq, Prod.mk.injEq] at h
          obtain ⟨hcyceq, hneq⟩ := h
          subst hcyceq
          subst hneq
          set t := s.drop blockHead.length with htdef
          set cyc0 := t.takeWhile (· ≠ '"') with hcyc0
          have hst : s = blockHead ++ t := eq_append_drop_of_isPrefixOf hbh
          have htdecomp : t = cyc0 ++ t.dropWhile (· ≠ '"') :=
            (List.takeWhile_append_dropWhile _ t).symm
          have hdropt : t.drop cyc0.length = t.dropWhile (· ≠ '"') := by
            conv_lhs => rw [htdecomp]
            rw [List.drop_left]
          have hdw : ∃ u, t.dropWhile (· ≠ '"') = '"' :: u := by
            cases hcase : t.dropWhile (· ≠ '"') with
            | nil =>
              rw [hcase] at hdropt
              rw [hdropt] at hq
              exact absurd rfl hq
            | cons x u =>
              have hh := List.head?_dropWhile_not (fun c => decide (c ≠ '"')) t
              rw [hcase] at hh
              have hx : x = '"' := by simpa using hh
              exact ⟨u, by rw [hx]⟩
          obtain ⟨u, hu⟩ := hdw
          have hsfull : s = (blockHead ++ (cyc0 ++ ['"'])) ++ u := by
            rw [hst]
            conv_lhs => rw [htdecomp, hu]
            simp
          have hplen : (blockHead ++ (cyc0 ++ ['"'])).length
              = blockHead.length + cyc0.length + 1 := by
            simp only [List.length_append, List.length_cons, List.length_nil]
            omega
          have hlen : s.length = blockHead.length + cyc0.length + 1 + u.length := by
            rw [hsfull]
            simp only [List.length_append, List.length_cons, List.length_nil]
            omega
          have hbodydrop : s.drop (blockHead.length + cyc0.length + 1) = u := by
            conv_lhs => rw [hsfull, ← hplen]
            rw [List.drop_left]
          rw [hbodydrop] at hft
          obtain ⟨hklt, hterm, hmin⟩ := findTerm_spec u kk hft
          have hcycne : cyc0 ≠ [] := by
            intro hnil
            rw [hnil] at hcyc
            exact hcyc rfl
          have hdropn : ∀ j, blockHead.length + cyc0.length + 1 ≤ j →
              s.drop j = u.drop (j - (blockHead.length + cyc0.length + 1)) := by
            intro j hj
            rw [← hbodydrop, List.drop_drop]
            congr 1
            omega
          refine ⟨by omega, hcycne, by omega, ?_, ?_, ?_⟩
          · rw [hsfull]
            exact List.isPrefixOf_iff_prefix.mpr (List.prefix_append _ _)
          · rw [hdropn _ (by omega)]
            have : blockHead.length + cyc0.length + 1 + kk
                - (blockHead.length + cyc0.length + 1) = kk := by omega
            rw [this]
            exact hterm
          · intro j hj1 hj2
            rw [hdropn _ hj1]
            exact hmin _ (by omega)
  next hbh => exact absurd h (by simp)

/-- Per-block soundness of the `finditer` scan, relative to the scan
state: every produced block lies beyond the pending skip, fits in the
scanned suffix, corresponds to a successful pattern match at its offsets,
carries the matched text and the extracted fields, and starts either at
the scan position (with `^` holding) or right after a newline. -/
theorem scanMd_sound :
    ∀ (s : List Char) (k : Nat) (bol : Bool) (pos : Nat) (r : Release),
      r ∈ scanMd k bol pos s →
      pos + k ≤ r.start
      ∧ r.stop ≤ pos + s.length
      ∧ matchRelAt (s.drop (r.start - pos)) = some (r.releaseCycle, r.stop - r.start)
      ∧ r.text = (s.drop (r.start - pos)).take (r.stop - r.start)
      ∧ r.latest = extractField latKey r.text
      ∧ r.latestReleaseDate = extractField dateKey r.text
      ∧ (r.start = pos ∧ bol = true ∨ pos < r.start ∧ s.get? (r.start - pos - 1) = some '\n') := by
  intro s
  induction s with
  | nil =>
    intro k bol pos r hr
    exact absurd hr (by simp [scanMd])
  | cons c rest ih =>
    intro k bol pos r hr
    cases k with
    | succ kp =>
      have hmem : r ∈ scanMd kp (c = '\n') (pos + 1) rest := hr
      obtain ⟨h1, h2, h3, h4, h5, h6, h7⟩ := ih kp (c = '\n') (pos + 1) r hmem
      have hdropeq : (c :: rest).drop (r.start - pos) = rest.drop (r.start - (pos + 1)) := by
        have hh : r.start - pos = (r.start - (pos + 1)) + 1 := by omega
        rw [hh, List.drop_succ_cons]
      have hstopeq : r.stop - r.start = r.stop - r.start := rfl
      refine ⟨by omega, by simp only [List.length_cons]; omega, ?_, ?_, h5, h6, ?_⟩
      · rw [hdropeq]
        have hh : r.stop - r.start = r.stop - r.start := rfl
        exact h3
      · rw [hdropeq]; exact h4
      · rcases h7 with ⟨hs1, hs2⟩ | ⟨hs1, hs2⟩
        · refine Or.inr ⟨by omega, ?_⟩
          have hc : c = '\n' := of_decide_eq_true hs2
          have hidx : r.start - pos - 1 = 0 := by omega
          rw [hidx, hc]
          rfl
        · refine Or.inr ⟨by omega, ?_⟩
          have hidx : r.start - pos - 1 = (r.start - (pos + 1) - 1) + 1 := by omega
          rw [hidx]
          exact hs2
    | zero =>
      cases bol with
      | false =>
        have hmem : r ∈ scanMd 0 (c = '\n') (pos + 1) rest := hr
        obtain ⟨h1, h2, h3, h4, h5, h6, h7⟩ := ih 0 (c = '\n') (pos + 1) r hmem
        have hdropeq : (c :: rest).drop (r.start - pos) = rest.drop (r.start - (pos + 1)) := by
          have hh : r.start - pos = (r.start - (pos + 1)) + 1 := by omega
          rw [hh, List.drop_succ_cons]
        refine ⟨by omega, by simp only [List.length_cons]; omega, ?_, ?_, h5, h6, ?_⟩
        · rw [hdropeq]; exact h3
        · rw [hdropeq]; exact h4
        · rcases h7 with ⟨hs1, hs2⟩ | ⟨hs1, hs2⟩
          · refine Or.inr ⟨by omega, ?_⟩
            have hc : c = '\n' := of_decide_eq_true hs2
            have hidx : r.start - pos - 1 = 0 := by omega
            rw [hidx, hc]
            rfl
          · refine Or.inr ⟨by omega, ?_⟩
            have hidx : r.start - pos - 1 = (r.start - (pos + 1) - 1) + 1 := by omega
            rw [hidx]
            exact hs2
      | true =>
        cases hm : matchRelAt (c :: rest) with
        | none =>
          have hmem : r ∈ scanMd 0 (c = '\n') (pos + 1) rest := by
            have hr' : r ∈ (match matchRelAt (c :: rest) with
              | some (cyc, n) =>
                mkRelease pos n cyc ((c :: rest).take n)
                  :: scanMd (n - 1) (c = '\n') (pos + 1) rest
              | none => scanMd 0 (c = '\n') (pos + 1) rest) := hr
            rw [hm] at hr'
            exact hr'
          obtain ⟨h1, h2, h3, h4, h5, h6, h7⟩ := ih 0 (c = '\n') (pos + 1) r hmem
          have hdropeq : (c :: rest).drop (r.start - pos) = rest.drop (r.start - (pos + 1)) := by
            have hh : r.start - pos = (r.start - (pos + 1)) + 1 := by omega
            rw [hh, List.drop_succ_cons]
          refine ⟨by omega, by simp only [List.length_cons]; omega, ?_, ?_, h5, h6, ?_⟩
          · rw [hdropeq]; exact h3
          · rw [hdropeq]; exact h4
          · rcases h7 with ⟨hs1, hs2⟩ | ⟨hs1, hs2⟩
            · refine Or.inr ⟨by omega, ?_⟩
              have hc : c = '\n' := of_decide_eq_true hs2
              have hidx : r.start - pos - 1 = 0 := by omega
              rw [hidx, hc]
              rfl
            · refine Or.inr ⟨by omega, ?_⟩
              have hidx : r.start - pos - 1 = (r.start - (pos + 1) - 1) + 1 := by omega
              rw [hidx]
              exact hs2
        | some p =>
          obtain ⟨cyc, n⟩ := p
          have hr' : r ∈ mkRelease pos n cyc ((c :: rest).take n)
              :: scanMd (n - 1) (c = '\n') (pos + 1) rest := by
            have hr'' : r ∈ (match matchRelAt (c :: rest) with
              | some (cyc, n) =>
                mkRelease pos n cyc ((c :: rest).take n)
                  :: scanMd (n - 1) (c = '\n') (pos + 1) rest
              | none => scanMd 0 (c = '\n') (pos + 1) rest) := hr
            rw [hm] at hr''
            exact hr''
          obtain ⟨hn1, hncyc, hn2, hn3, hn4, hn5⟩ := matchRelAt_spec hm
          rcases List.mem_cons.mp hr' with rfl | htail
          · refine ⟨by simp [mkRelease], ?_, ?_, ?_, ?_, ?_, ?_⟩
            · show pos + n ≤ pos + (c :: rest).length
              omega
            · show matchRelAt ((c :: rest).drop (pos - pos)) = some (cyc, (pos + n) - pos)
              have hz : pos - pos = 0 := by omega
              have hnn : pos + n - pos = n := by omega
              rw [hz, hnn, List.drop_zero]
              exact hm
            · show (c :: rest).take n = ((c :: rest).drop (pos - pos)).take ((pos + n) - pos)
              have hz : pos - pos = 0 := by omega
              have hnn : pos + n - pos = n := by omega
              rw [hz, hnn, List.drop_zero]
            · rfl
            · rfl
            · exact Or.inl ⟨rfl, rfl⟩
          · obtain ⟨h1, h2, h3, h4, h5, h6, h7⟩ := ih (n - 1) (c = '\n') (pos + 1) r htail
            have hdropeq : (c :: rest).drop (r.start - pos) = rest.drop (r.start - (pos + 1)) := by
              have hh : r.start - pos = (r.start - (pos + 1)) + 1 := by omega
              rw [hh, List.drop_succ_cons]
            refine ⟨by omega, by simp only [List.length_cons]; omega, ?_, ?_, h5, h6, ?_⟩
            · rw [hdropeq]; exact h3
            · rw [hdropeq]; exact h4
            · rcases h7 with ⟨hs1, hs2⟩ | ⟨hs1, hs2⟩
              · refine Or.inr ⟨by omega, ?_⟩
                have hc : c = '\n' := of_decide_eq_true hs2
                have hidx : r.start - pos - 1 = 0 := by omega
                rw [hidx, hc]
                rfl
              · refine Or.inr ⟨by omega, ?_⟩
                have hidx : r.start - pos - 1 = (r.start - (pos + 1) - 1) + 1 := by omega
                rw [hidx]
                exact hs2

/-- Membership from `head?`. -/
theorem mem_of_head_mem {α : Type} {l : List α} {b : α} (hb : l.head? = some b) : b ∈ l := by
  cases l with
  | nil => cases hb
  | cons a t =>
    have : a = b := by simpa using hb
    rw [← this]
    exact List.mem_cons_self a t

/-- The scan yields blocks with non-overlapping, increasing extents. -/
theorem scanMd_chain :
    ∀ (s : List Char) (k : Nat) (bol : Bool) (pos : Nat),
      List.Chain' (fun a b => a.stop ≤ b.start) (scanMd k bol pos s) := by
  intro s
  induction s with
  | nil => intro k bol pos; simp [scanMd]
  | cons c rest ih =>
    intro k bol pos
    cases k with
    | succ kp => exact ih kp (c = '\n') (pos + 1)
    | zero =>
      cases bol with
      | false => exact ih 0 (c = '\n') (pos + 1)
      | true =>
        show List.Chain' (fun a b => a.stop ≤ b.start)
          (match matchRelAt (c :: rest) with
            | some (cyc, n) =>
              mkRelease pos n cyc ((c :: rest).take n)
                :: scanMd (n - 1) (c = '\n') (pos + 1) rest
            | none => scanMd 0 (c = '\n') (pos + 1) rest)
        cases hm : matchRelAt (c :: rest) with
        | none => exact ih 0 (c = '\n') (pos + 1)
        | some p =>
          obtain ⟨cyc, n⟩ := p
          rw [List.chain'_cons']
          refine ⟨?_, ih (n - 1) (c = '\n') (pos + 1)⟩
          intro b hb
          have hbmem : b ∈ scanMd (n - 1) (c = '\n') (pos + 1) rest := mem_of_head_mem hb
          have hbs := (scanMd_sound rest (n - 1) (c = '\n') (pos + 1) b hbmem).1
          obtain ⟨hn1, _, _, _, _, _⟩ := matchRelAt_spec hm
          show pos + n ≤ b.start
          omega

/-- C4 (amended claim): every block `parse_md_releases` returns starts at a
line `  - releaseCycle: "<cycle>"` (at the start of the document or right
after a newline), its text is exactly the document slice at its recorded
offsets, it extends up to but not including the nearest following
terminator — the next `\n  - releaseCycle:` or a newline followed by `---`
— and the blocks appear in document order with non-overlapping offset
ranges.  (A final such line not followed by either terminator yields no
block: exhaustiveness in the claim's sense fails, see the
counterexample.) -/
theorem c4_blocks_sound (content : List Char) :
    List.Chain' (fun a b => a.stop ≤ b.start) (parse_md_releases content)
    ∧ ∀ r ∈ parse_md_releases content,
        r.start < r.stop
        ∧ r.stop ≤ content.length
        ∧ r.text = (content.drop r.start).take (r.stop - r.start)
        ∧ (r.start = 0 ∨ content.get? (r.start - 1) = some '\n')
        ∧ (blockHead ++ (r.releaseCycle ++ ['"'])).isPrefixOf (content.drop r.start) = true
        ∧ (lookNext.isPrefixOf (content.drop r.stop)
            || lookSep.isPrefixOf (content.drop r.stop)) = true
        ∧ ∀ j, r.start + blockHead.length + r.releaseCycle.length + 1 ≤ j → j < r.stop →
            (lookNext.isPrefixOf (content.drop j) || lookSep.isPrefixOf (content.drop j))
              = false := by
  refine ⟨scanMd_chain content 0 true 0, ?_⟩
  intro r hr
  obtain ⟨h1, h2, h3, h4, h5, h6, h7⟩ := scanMd_sound content 0 true 0 r hr
  rw [Nat.sub_zero] at h3 h4
  obtain ⟨hm1, hmcyc, hm2, hm3, hm4, hm5⟩ := matchRelAt_spec h3
  have hlen : (content.drop r.start).length = content.length - r.start := by
    simp [List.length_drop]
  have hdd : ∀ j, r.start ≤ j → (content.drop r.start).drop (j - r.start) = content.drop j := by
    intro j hj
    rw [List.drop_drop]
    congr 1
    omega
  have hss : r.start < r.stop := by omega
  refine ⟨hss, by omega, h4, ?_, hm3, ?_, ?_⟩
  · rcases h7 with ⟨hs1, _⟩ | ⟨_, hs2⟩
    · exact Or.inl hs1
    · exact Or.inr (by simpa using hs2)
  · have := hm4
    rw [hdd r.stop (by omega)] at this
    exact this
  · intro j hj1 hj2
    have := hm5 (j - r.start) (by omega) (by omega)
    rw [hdd j (by omega)] at this
    exact this


example : parse_md_releases noLatestDoc = [relNoLatest] := by decide

/-- Witness for C4 at `noLatestDoc` and its single block. -/
theorem c4_blocks_sound_witness :
    List.Chain' (fun a b => a.stop ≤ b.start) (parse_md_releases noLatestDoc)
    ∧ relNoLatest.start < relNoLatest.stop
    ∧ relNoLatest.stop ≤ noLatestDoc.length
    ∧ relNoLatest.text
        = (noLatestDoc.drop relNoLatest.start).take (relNoLatest.stop - relNoLatest.start)
    ∧ (relNoLatest.start = 0 ∨ noLatestDoc.get? (relNoLatest.start - 1) = some '\n')
    ∧ (blockHead ++ (relNoLatest.releaseCycle ++ ['"'])).isPrefixOf
        (noLatestDoc.drop relNoLatest.start) = true
    ∧ (lookNext.isPrefixOf (noLatestDoc.drop relNoLatest.stop)
        || lookSep.isPrefixOf (noLatestDoc.drop relNoLatest.stop)) = true
    ∧ (lookNext.isPrefixOf (noLatestDoc.drop 30)
        || lookSep.isPrefixOf (noLatestDoc.drop 30)) = false := by
  have h := c4_blocks_sound noLatestDoc
  have h2 := h.2 relNoLatest (by decide)
  exact ⟨h.1, h2.1, h2.2.1, h2.2.2.1, h2.2.2.2.1, h2.2.2.2.2.1, h2.2.2.2.2.2.1,
    h2.2.2.2.2.2.2 30 (by decide) (by decide)⟩



/-- Arithmetic characterization of the tuple order. -/
theorem tupGt_iff (a b : Version) :
    tupGt a b = true ↔
      b.1 < a.1 ∨ a.1 = b.1 ∧ (b.2.1 < a.2.1 ∨ a.2.1 = b.2.1 ∧
        (b.2.2.1 < a.2.2.1 ∨ a.2.2.1 = b.2.2.1 ∧ b.2.2.2 < a.2.2.2)) := by
  obtain ⟨a1, a2, a3, a4⟩ := a
  obtain ⟨b1, b2, b3, b4⟩ := b
  by_cases h1 : a1 = b1 <;> by_cases h2 : a2 = b2 <;> by_cases h3 : a3 = b3 <;>
    simp [tupGt, h1, h2, h3] <;> omega

/-- The tuple order is irreflexive. -/
theorem tupGt_irrefl (a : Version) : tupGt a a = false := by
  rw [Bool.eq_false_iff]
  intro h
  rw [tupGt_iff] at h
  omega

/-- The tuple order is transitive. -/
theorem tupGt_trans {a b c : Version} (h1 : tupGt a b = true) (h2 : tupGt b c = true) :
    tupGt a c = true := by
  rw [tupGt_iff] at *
  omega

/-- Nothing at most the old maximum exceeds a strictly larger newcomer. -/
theorem tupGt_false_of_le_lt {p oldP parsed : Version}
    (h1 : tupGt p oldP = false) (h2 : tupGt parsed oldP = true) :
    tupGt p parsed = false := by
  rw [Bool.eq_false_iff]
  intro hcon
  have := tupGt_trans hcon h2
  rw [this] at h1
  cases h1

/-- A strictly larger newcomer exceeds everything at most the old maximum. -/
theorem tupGt_true_of_le_lt {p oldP parsed : Version}
    (h1 : tupGt p oldP = false) (h2 : tupGt parsed oldP = true) :
    tupGt parsed p = true := by
  have h1' : ¬ (tupGt p oldP = true) := by rw [h1]; exact Bool.false_ne_true
  rw [tupGt_iff] at h1' h2 ⊢
  omega

/-- The kept feed entry for cycle `c` among the entries `pre`, as the claim
words it: it occurs in `pre` with version `v` (whose release cycle is `c`)
and reformatted date `d`; no entry of cycle `c` in `pre` parses strictly
above it; and every entry of cycle `c` strictly before it parses strictly
below it (first-seen maximal entry). -/
def KeptSpec (pre : List Entry) (c v d : List Char) : Prop :=
  ∃ (i : Nat) (ei : Entry) (pv : Version),
    pre[i]? = some ei ∧ ei.version = v ∧ get_release_cycle v = some c
    ∧ convertDate ei.releasedOn = some d ∧ parse_version v = some pv
    ∧ (∀ (j : Nat) (ej : Entry) (p : Version),
         pre[j]? = some ej → get_release_cycle ej.version = some c →
         parse_version ej.version = some p → tupGt p pv = false)
    ∧ (∀ (j : Nat) (ej : Entry) (p : Version),
         j < i → pre[j]? = some ej → get_release_cycle ej.version = some c →
         parse_version ej.version = some p → tupGt pv p = true)

/-- No entry of `pre` has a parseable version of cycle `c`. -/
def NoCycleIn (pre : List Entry) (c : List Char) : Prop :=
  ∀ (j : Nat) (ej : Entry) (p : Version),
    pre[j]? = some ej → get_release_cycle ej.version = some c →
    parse_version ej.version = some p → False

/-- Invariant of `load_json_versions`' fold: for each cycle the accumulator
holds nothing (and no processed entry has that cycle) or holds exactly the
first-seen maximal processed entry of that cycle. -/
def MapInv (pre : List Entry) (m : Cycles) : Prop :=
  ∀ c : List Char,
    (m c = none → NoCycleIn pre c)
    ∧ ∀ v d, m c = some ⟨v, d⟩ → KeptSpec pre c v d

/-- Lift an indexed fact over `pre` to `pre ++ [e]`. -/
theorem getElem?_concat_cases {α : Type} {l : List α} {a x : α} {j : Nat}
    (h : (l ++ [a])[j]? = some x) : l[j]? = some x ∨ j = l.length ∧ x = a := by
  by_cases hj : j < l.length
  · left
    rw [List.getElem?_append_left hj] at h
    exact h
  · right
    have hlt : j < (l ++ [a]).length := (List.getElem?_eq_some_iff.mp h).1
    have hjl : j = l.length := by
      simp only [List.length_append, List.length_cons, List.length_nil] at hlt
      omega
    subst hjl
    rw [List.getElem?_concat_length] at h
    refine ⟨rfl, ?_⟩
    injection h with hh
    exact hh.symm

/-- A member of `pre` is a member of `pre ++ [e]` at the same index. -/
theorem getElem?_concat_left {α : Type} {l : List α} {a x : α} {j : Nat}
    (h : l[j]? = some x) : (l ++ [a])[j]? = some x := by
  have hj : j < l.length := (List.getElem?_eq_some_iff.mp h).1
  rw [List.getElem?_append_left hj]
  exact h

theorem noCycleIn_concat {pre : List Entry} {c : List Char} {e : Entry}
    (h : NoCycleIn pre c)
    (he : ∀ p, get_release_cycle e.version = some c → parse_version e.version = some p → False) :
    NoCycleIn (pre ++ [e]) c := by
  intro j ej p hj hcyc hp
  rcases getElem?_concat_cases hj with hin | ⟨rfl, rfl⟩
  · exact h j ej p hin hcyc hp
  · exact he p hcyc hp

theorem keptSpec_concat {pre : List Entry} {c v d : List Char} {e : Entry}
    (h : KeptSpec pre c v d)
    (hmax : ∀ p pv, get_release_cycle e.version = some c → parse_version e.version = some p →
       parse_version v = some pv → tupGt p pv = false) :
    KeptSpec (pre ++ [e]) c v d := by
  obtain ⟨i, ei, pv, hi, hv, hcyc, hd, hpv, hm, hf⟩ := h
  have hilt : i < pre.length := (List.getElem?_eq_some_iff.mp hi).1
  refine ⟨i, ei, pv, getElem?_concat_left hi, hv, hcyc, hd, hpv, ?_, ?_⟩
  · intro j ej p hj hc hp
    rcases getElem?_concat_cases hj with hin | ⟨rfl, rfl⟩
    · exact hm j ej p hin hc hp
    · exact hmax p pv hc hp hpv
  · intro j ej p hji hj hc hp
    rcases getElem?_concat_cases hj with hin | ⟨rfl, rfl⟩
    · exact hf j ej p hji hin hc hp
    · omega

/-- The per-entry step of `load_json_versions` preserves the invariant. -/
theorem loadStep_inv {pre : List Entry} {acc acc' : Cycles} {e : Entry}
    (hinv : MapInv pre acc) (hs : loadStep acc e = .ok acc') :
    MapInv (pre ++ [e]) acc' := by
  unfold loadStep at hs
  cases hpe : parse_version e.version with
  | none =>
    rw [hpe] at hs
    dsimp only [] at hs
    have hacc : acc = acc' := by injection hs
    subst hacc
    intro c
    refine ⟨fun hn => noCycleIn_concat ((hinv c).1 hn) ?_, fun v d hvd =>
      keptSpec_concat ((hinv c).2 v d hvd) ?_⟩
    · intro p _ hp
      rw [hpe] at hp
      cases hp
    · intro p pv _ hp _
      rw [hpe] at hp
      cases hp
  | some parsed =>
    rw [hpe] at hs
    dsimp only [] at hs
    cases hgc : get_release_cycle e.version with
    | none =>
      rw [hgc] at hs
      dsimp only [] at hs
      have hacc : acc = acc' := by injection hs
      subst hacc
      intro c
      refine ⟨fun hn => noCycleIn_concat ((hinv c).1 hn) ?_, fun v d hvd =>
        keptSpec_concat ((hinv c).2 v d hvd) ?_⟩
      · intro p hcg _
        rw [hgc] at hcg
        cases hcg
      · intro p pv hcg _ _
        rw [hgc] at hcg
        cases hcg
    | some cycle =>
      rw [hgc] at hs
      dsimp only [] at hs
      cases hcd : convertDate e.releasedOn with
      | none =>
        rw [hcd] at hs
        dsimp only [] at hs
        cases hs
      | some rdate =>
        rw [hcd] at hs
        dsimp only [] at hs
        cases hacc : acc cycle with
        | none =>
          rw [hacc] at hs
          dsimp only [] at hs
          have hacc' : acc' = setCycle acc cycle ⟨e.version, rdate⟩ := by
            injection hs with hh
            exact hh.symm
          subst hacc'
          intro c
          by_cases hcc : c = cycle
          · subst hcc
            constructor
            · intro hn
              exact absurd hn (by simp [setCycle])
            · intro v d hvd
              have hvd' : v = e.version ∧ d = rdate := by
                simp only [setCycle, eq_self_iff_true, if_true, ite_true, Option.some.injEq,
                  CycleEntry.mk.injEq] at hvd
                exact ⟨hvd.1.symm, hvd.2.symm⟩
              obtain ⟨rfl, rfl⟩ := hvd'
              refine ⟨pre.length, e, parsed, List.getElem?_concat_length pre e, rfl, hgc,
                hcd, hpe, ?_, ?_⟩
              · intro j ej p hj hc hp
                rcases getElem?_concat_cases hj with hin | ⟨rfl, rfl⟩
                · exact absurd hp (by
                    intro hpp
                    exact (hinv c).1 hacc j ej p hin hc hpp)
                · rw [hpe] at hp
                  injection hp with hp
                  rw [← hp]
                  exact tupGt_irrefl parsed
              · intro j ej p hji hj hc hp
                have hjlt : j < pre.length := by
                  have := (List.getElem?_eq_some_iff.mp hj).1
                  simp only [List.length_append, List.length_cons, List.length_nil] at this
                  omega
                rw [List.getElem?_append_left hjlt] at hj
                exact absurd hp (by
                  intro hpp
                  exact (hinv c).1 hacc j ej p hj hc hpp)
          · constructor
            · intro hn
              rw [show (setCycle acc cycle ⟨e.version, rdate⟩) c = acc c by
                simp [setCycle, hcc]] at hn
              refine noCycleIn_concat ((hinv c).1 hn) ?_
              intro p hcg _
              rw [hgc] at hcg
              injection hcg with hcg
              exact hcc hcg.symm
            · intro v d hvd
              rw [show (setCycle acc cycle ⟨e.version, rdate⟩) c = acc c by
                simp [setCycle, hcc]] at hvd
              refine keptSpec_concat ((hinv c).2 v d hvd) ?_
              intro p pv hcg _ _
              rw [hgc] at hcg
              injection hcg with hcg
              exact absurd hcg.symm hcc
        | some old =>
          rw [hacc] at hs
          dsimp only [] at hs
          cases hpo : parse_version old.version with
          | none =>
            rw [hpo] at hs
            dsimp only [] at hs
            cases hs
          | some oldP =>
            rw [hpo] at hs
            dsimp only [] at hs
            by_cases hgt : tupGt parsed oldP = true
            · rw [if_pos hgt] at hs
              have hacc' : acc' = setCycle acc cycle ⟨e.version, rdate⟩ := by
                injection hs with hh
                exact hh.symm
              subst hacc'
              have hkold : KeptSpec pre cycle old.version old.date :=
                (hinv cycle).2 old.version old.date (by rw [hacc])
              obtain ⟨io, eio, pvo, hio, hvo, hcyco, hdo, hpvo, hmo, hfo⟩ := hkold
              have hpvo' : pvo = oldP := by
                rw [hpo] at hpvo
                injection hpvo with hh
                exact hh.symm
              subst hpvo'
              intro c
              by_cases hcc : c = cycle
              · subst hcc
                constructor
                · intro hn
                  exact absurd hn (by simp [setCycle])
                · intro v d hvd
                  have hvd' : v = e.version ∧ d = rdate := by
                    simp only [setCycle, eq_self_iff_true, if_true, ite_true, Option.some.injEq,
                      CycleEntry.mk.injEq] at hvd
                    exact ⟨hvd.1.symm, hvd.2.symm⟩
                  obtain ⟨rfl, rfl⟩ := hvd'
                  refine ⟨pre.length, e, parsed, List.getElem?_concat_length pre e, rfl, hgc,
                    hcd, hpe, ?_, ?_⟩
                  · intro j ej p hj hc hp
                    rcases getElem?_concat_cases hj with hin | ⟨rfl, rfl⟩
                    · exact tupGt_false_of_le_lt (hmo j ej p hin hc hp) hgt
                    · rw [hpe] at hp
                      injection hp with hp
                      rw [← hp]
                      exact tupGt_irrefl parsed
                  · intro j ej p hji hj hc hp
                    have hjlt : j < pre.length := by
                      have := (List.getElem?_eq_some_iff.mp hj).1
                      simp only [List.length_append, List.length_cons,
                        List.length_nil] at this
                      omega
                    rw [List.getElem?_append_left hjlt] at hj
                    exact tupGt_true_of_le_lt (hmo j ej p hj hc hp) hgt
              · constructor
                · intro hn
                  rw [show (setCycle acc cycle ⟨e.version, rdate⟩) c = acc c by
                    simp [setCycle, hcc]] at hn
                  refine noCycleIn_concat ((hinv c).1 hn) ?_
                  intro p hcg _
                  rw [hgc] at hcg
                  injection hcg with hcg
                  exact hcc hcg.symm
                · intro v d hvd
                  rw [show (setCycle acc cycle ⟨e.version, rdate⟩) c = acc c by
                    simp [setCycle, hcc]] at hvd
                  refine keptSpec_concat ((hinv c).2 v d hvd) ?_
                  intro p pv hcg _ _
                  rw [hgc] at hcg
                  injection hcg with hcg
                  exact absurd hcg.symm hcc
            · rw [if_neg hgt] at hs
              have haccacc : acc = acc' := by injection hs
              subst haccacc
              have hgtf : tupGt parsed oldP = false := by
                rw [Bool.eq_false_iff]
                exact hgt
              intro c
              by_cases hcc : c = cycle
              · subst hcc
                constructor
                · intro hn
                  rw [hn] at hacc
                  cases hacc
                · intro v d hvd
                  refine keptSpec_concat ((hinv c).2 v d hvd) ?_
                  intro p pv hcg hp hpv
                  rw [hgc] at hcg
                  rw [hpe] at hp
                  injection hp with hp
                  -- v is the stored entry: acc c = some ⟨v, d⟩ and acc c = some old
                  have hvold : v = old.version := by
                    rw [hvd] at hacc
                    injection hacc with hacc2
                    exact congrArg CycleEntry.version hacc2
                  rw [hvold, hpo] at hpv
                  injection hpv with hpv
                  rw [← hp, ← hpv] at *
                  rw [← hp] at hgtf ⊢
                  exact hgtf
              · constructor
                · intro hn
                  refine noCycleIn_concat ((hinv c).1 hn) ?_
                  intro p hcg _
                  rw [hgc] at hcg
                  injection hcg with hcg
                  exact hcc hcg.symm
                · intro v d hvd
                  refine keptSpec_concat ((hinv c).2 v d hvd) ?_
                  intro p pv hcg _ _
                  rw [hgc] at hcg
                  injection hcg with hcg
                  exact absurd hcg.symm hcc

/-- The fold of `loadStep` preserves the invariant along any prefix. -/
theorem load_go_inv :
    ∀ (rest pre : List Entry) (acc m : Cycles),
      MapInv pre acc → rest.foldlM loadStep acc = .ok m → MapInv (pre ++ rest) m := by
  intro rest
  induction rest with
  | nil =>
    intro pre acc m hinv h
    have hacc : acc = m := by
      simpa [List.foldlM_nil, pure, Except.pure] using h
    rw [List.append_nil, ← hacc]
    exact hinv
  | cons e rest ih =>
    intro pre acc m hinv h
    rw [List.foldlM_cons] at h
    cases hs : loadStep acc e with
    | error err =>
      rw [hs] at h
      exact absurd h (by simp [bind, Except.bind])
    | ok acc' =>
      rw [hs] at h
      simp only [bind, Except.bind] at h
      have hstep : MapInv (pre ++ [e]) acc' := loadStep_inv hinv hs
      have hres := ih (pre ++ [e]) acc' m hstep h
      rw [List.append_assoc] at hres
      simpa using hres

/-- C6: for every feed input on which the load succeeds, the returned map
holds at most one entry per release cycle (it is a function from cycle to
at most one entry by construction, mirroring the Python dict), and the
entry it holds for a cycle is a feed entry of that cycle whose parsed
version no feed entry of the cycle strictly exceeds; every same-cycle entry
seen earlier parses strictly below it, so the first-seen maximal entry is
kept and a later equal entry never replaces it. -/
theorem c6_feed_map_max (entries : List Entry) (m : Cycles) (c v d : List Char)
    (h : load_json_versions entries = .ok m) (hm : m c = some ⟨v, d⟩) :
    KeptSpec entries c v d := by
  have hbase : MapInv [] emptyCycles := by
    intro c0
    constructor
    · intro _ j ej p hj _ _
      simp at hj
    · intro v0 d0 hvd
      simp [emptyCycles] at hvd
  have hres := load_go_inv entries [] emptyCycles m hbase h
  simpa using (hres c).2 v d hm

/-- A concrete three-entry feed: two `6.3` entries (later one larger) and a
`6.1` entry. -/
def entriesEx : List Entry :=
  [⟨"6.3.2".data, "2025/01/01 00:00:00".data⟩,
   ⟨"6.3.3".data, "2025/01/02 00:00:00".data⟩,
   ⟨"6.1.5".data, "2025/01/03 00:00:00".data⟩]

/-- The map `load_json_versions` builds from `entriesEx`. -/
def cyclesEx : Cycles :=
  setCycle
    (setCycle (setCycle emptyCycles "6.3".data ⟨"6.3.2".data, "2025-01-01".data⟩)
      "6.3".data ⟨"6.3.3".data, "2025-01-02".data⟩)
    "6.1".data ⟨"6.1.5".data, "2025-01-03".data⟩

/-- Witness for C6 at `entriesEx` and cycle `6.3`. -/
theorem c6_feed_map_max_witness :
    KeptSpec entriesEx "6.3".data "6.3.3".data "2025-01-02".data :=
  c6_feed_map_max entriesEx cyclesEx "6.3".data "6.3.3".data "2025-01-02".data
    (by rfl) (by rfl)




/-- Generic form of the exact-extent scan: the greedy run over `a ++ rest`
is `a` when all of `a` satisfies the predicate and the head of `rest` does
not. -/
theorem takeWhile_append_all {p : Char → Bool} (a rest : List Char)
    (ha : ∀ c ∈ a, p c = true) (hrest : ∀ c, rest.head? = some c → p c = false) :
    (a ++ rest).takeWhile p = a := by
  induction a with
  | nil =>
    cases rest with
    | nil => rfl
    | cons c t => simp [List.takeWhile_cons, hrest c rfl]
  | cons c a ih =>
    simp [List.takeWhile_cons, ha c (List.mem_cons_self c a),
      ih (fun x hx => ha x (List.mem_cons_of_mem c hx))]

/-- A successful `latest`-pattern match at the head of a decomposed string. -/
theorem matchLatestAt_at (old suf : List Char) (hold : ∀ ch ∈ old, (ch ≠ '"')) :
    matchLatestAt (latKeyQ ++ (old ++ '"' :: suf))
      = some (old, latKeyQ.length + old.length + 1) := by
  unfold matchLatestAt
  rw [if_pos (List.isPrefixOf_iff_prefix.mpr (List.prefix_append _ _))]
  dsimp only []
  rw [List.drop_left]
  have htw : (old ++ '"' :: suf).takeWhile (· ≠ '"') = old := by
    refine takeWhile_append_all old ('"' :: suf) (fun c hc => by simpa using hold c hc) ?_
    intro c hc
    simp only [List.head?, Option.some.injEq] at hc
    subst hc
    simp
  rw [htw]
  rw [show (old ++ '"' :: suf).drop old.length = '"' :: suf from List.drop_left old _]
  rfl

/-- No occurrence of `pat` starts inside the first part `a` of `a ++ rest`. -/
def noStartIn (pat : List Char) : List Char → List Char → Bool
  | [], _ => true
  | c :: a, rest => !pat.isPrefixOf (c :: (a ++ rest)) && noStartIn pat a rest

/-- One-step equation of the `latest`-substitution scanner. -/
theorem goSubLatest_cons_eq (v : List Char) (c : Char) (rest : List Char) :
    goSubLatest v 0 (c :: rest)
      = match matchLatestAt (c :: rest) with
        | some (_, n) => latKeyQ ++ v ++ '"' :: goSubLatest v (n - 1) rest
        | none => c :: goSubLatest v 0 rest := rfl

/-- One-step equation of the insertion scanner. -/
theorem goInsDate_cons_eq (d : List Char) (c : Char) (rest : List Char) :
    goInsDate d 0 (c :: rest)
      = match matchLatestAt (c :: rest) with
        | some (old, n) =>
            latKeyQ ++ old ++ '"' :: '
' :: (dateKey ++ d) ++ goInsDate d (n - 1) rest
        | none => c :: goInsDate d 0 rest := rfl

/-- The substitution scanner copies a match-free leading segment. -/
theorem goSubLatest_append (v : List Char) :
    ∀ (a rest : List Char), noStartIn latKeyQ a rest = true →
      goSubLatest v 0 (a ++ rest) = a ++ goSubLatest v 0 rest := by
  intro a
  induction a with
  | nil => intro rest _; rfl
  | cons c a ih =>
    intro rest h
    unfold noStartIn at h
    rw [Bool.and_eq_true] at h
    show goSubLatest v 0 (c :: (a ++ rest)) = _
    rw [goSubLatest_cons_eq, matchLatestAt_none (by simpa using h.1)]
    dsimp only []
    rw [ih rest h.2, List.cons_append]

/-- The insertion scanner copies a match-free leading segment. -/
theorem goInsDate_append (d : List Char) :
    ∀ (a rest : List Char), noStartIn latKeyQ a rest = true →
      goInsDate d 0 (a ++ rest) = a ++ goInsDate d 0 rest := by
  intro a
  induction a with
  | nil => intro rest _; rfl
  | cons c a ih =>
    intro rest h
    unfold noStartIn at h
    rw [Bool.and_eq_true] at h
    show goInsDate d 0 (c :: (a ++ rest)) = _
    rw [goInsDate_cons_eq, matchLatestAt_none (by simpa using h.1)]
    dsimp only []
    rw [ih rest h.2, List.cons_append]

/-- Skipping counts characters: the scanner resumes after the matched
original text. -/
theorem goSubLatest_skip (v : List Char) :
    ∀ (a s : List Char), goSubLatest v a.length (a ++ s) = goSubLatest v 0 s := by
  intro a
  induction a with
  | nil => intro s; rfl
  | cons c a ih => intro s; exact ih s

/-- Skipping counts characters for the insertion scanner. -/
theorem goInsDate_skip (d : List Char) :
    ∀ (a s : List Char), goInsDate d a.length (a ++ s) = goInsDate d 0 s := by
  intro a
  induction a with
  | nil => intro s; rfl
  | cons c a ih => intro s; exact ih s

/-- The substitution scanner rewrites a match at the head and resumes
after it. -/
theorem goSubLatest_match_step (v old suf : List Char)
    (hold : ∀ ch ∈ old, ch ≠ '"') (hsuf : containsSub latKeyQ suf = false) :
    goSubLatest v 0 (latKeyQ ++ (old ++ '"' :: suf)) = latKeyQ ++ (v ++ '"' :: suf) := by
  have hm := matchLatestAt_at old suf hold
  have hw : latKeyQ ++ (old ++ '"' :: suf)
      = ' ' :: ("   latest: \"".data ++ (old ++ '"' :: suf)) := rfl
  rw [hw, goSubLatest_cons_eq, ← hw, hm]
  dsimp only []
  have harr : "   latest: \"".data ++ (old ++ '"' :: suf)
      = ("   latest: \"".data ++ (old ++ ['"'])) ++ suf := by simp
  have h13 : latKeyQ.length = 13 := rfl
  have h12 : ("   latest: \"".data).length = 12 := rfl
  have hlen : latKeyQ.length + old.length + 1 - 1
      = ("   latest: \"".data ++ (old ++ ['"'])).length := by
    simp only [List.length_append, List.length_cons, List.length_nil, h13, h12]
    omega
  rw [harr, hlen, goSubLatest_skip]
  rw [show goSubLatest v 0 suf = suf from subLatest_id v suf hsuf]
  simp

/-- The insertion scanner appends the new line after a match at the head
and resumes after it. -/
theorem goInsDate_match_step (d old suf : List Char)
    (hold : ∀ ch ∈ old, ch ≠ '"') (hsuf : containsSub latKeyQ suf = false) :
    goInsDate d 0 (latKeyQ ++ (old ++ '"' :: suf))
      = latKeyQ ++ (old ++ '"' :: '\n' :: ((dateKey ++ d) ++ suf)) := by
  have hm := matchLatestAt_at old suf hold
  have hw : latKeyQ ++ (old ++ '"' :: suf)
      = ' ' :: ("   latest: \"".data ++ (old ++ '"' :: suf)) := rfl
  rw [hw, goInsDate_cons_eq, ← hw, hm]
  dsimp only []
  have harr : "   latest: \"".data ++ (old ++ '"' :: suf)
      = ("   latest: \"".data ++ (old ++ ['"'])) ++ suf := by simp
  have h13 : latKeyQ.length = 13 := rfl
  have h12 : ("   latest: \"".data).length = 12 := rfl
  have hlen : latKeyQ.length + old.length + 1 - 1
      = ("   latest: \"".data ++ (old ++ ['"'])).length := by
    simp only [List.length_append, List.length_cons, List.length_nil, h13, h12]
    omega
  rw [harr, hlen, goInsDate_skip]
  rw [show goInsDate d 0 suf = suf from insDate_id d suf hsuf]
  simp

/-- `subLatest` on a block with exactly one `latest` occurrence. -/
theorem subLatest_single (v old suf pre : List Char)
    (hold : ∀ ch ∈ old, ch ≠ '"')
    (hpre : noStartIn latKeyQ pre (latKeyQ ++ (old ++ '"' :: suf)) = true)
    (hsuf : containsSub latKeyQ suf = false) :
    subLatest v (pre ++ (latKeyQ ++ (old ++ '"' :: suf)))
      = pre ++ (latKeyQ ++ (v ++ '"' :: suf)) := by
  unfold subLatest
  rw [goSubLatest_append v pre _ hpre, goSubLatest_match_step v old suf hold hsuf]

/-- `insDate` on a block with exactly one `latest` occurrence. -/
theorem insDate_single (d old suf pre : List Char)
    (hold : ∀ ch ∈ old, ch ≠ '"')
    (hpre : noStartIn latKeyQ pre (latKeyQ ++ (old ++ '"' :: suf)) = true)
    (hsuf : containsSub latKeyQ suf = false) :
    insDate d (pre ++ (latKeyQ ++ (old ++ '"' :: suf)))
      = pre ++ (latKeyQ ++ (old ++ '"' :: '\n' :: ((dateKey ++ d) ++ suf))) := by
  unfold insDate
  rw [goInsDate_append d pre _ hpre, goInsDate_match_step d old suf hold hsuf]

/-- C7: missing-field insertion.  For a block containing exactly one
`    latest: "<old>"` occurrence and no `latestReleaseDate` field, whose
cycle the feed maps to a strictly newer parseable version, the loop body of
`apply_updates` splices back the block with a new line
`    latestReleaseDate: <date>` inserted immediately after the `latest`
line (four-space indent, the feed's date); everything before the `latest`
line (`pre`) and after it (`suf`) is byte-for-byte unchanged — the only
other change is the `latest` value itself, which receives the feed's
version (the update that qualifies the block). -/
theorem c7_missing_date_insertion (cycles : Cycles) (content : List Char)
    (changes : List (List Char)) (r : Release) (e : CycleEntry) (np cp : Version)
    (pre old suf : List Char)
    (htext : r.text = pre ++ (latKeyQ ++ (old ++ '"' :: suf)))
    (hold : ∀ ch ∈ old, ch ≠ '"')
    (hvq : ∀ ch ∈ e.version, ch ≠ '"')
    (hpre1 : noStartIn latKeyQ pre (latKeyQ ++ (old ++ '"' :: suf)) = true)
    (hpre2 : noStartIn latKeyQ pre (latKeyQ ++ (e.version ++ '"' :: suf)) = true)
    (hsuf : containsSub latKeyQ suf = false)
    (hnodate : containsSub dateKeyCheck (pre ++ (latKeyQ ++ (e.version ++ '"' :: suf))) = false)
    (hc : cycles r.releaseCycle = some e)
    (hnp : parse_version e.version = some np)
    (hcp : currentParsedOf r = some cp)
    (hgt : tupGt np cp = true) :
    applyStep cycles (content, changes) r
      = .ok (content.take r.start
              ++ (pre ++ (latKeyQ ++ (e.version ++ '"' :: '\n' :: ((dateKey ++ e.date) ++ suf))))
              ++ content.drop r.stop,
             changes ++ [changeDesc r.releaseCycle (currentVersionOf r) e.version]) := by
  have hub1 : subLatest e.version r.text = pre ++ (latKeyQ ++ (e.version ++ '"' :: suf)) := by
    rw [htext]
    exact subLatest_single e.version old suf pre hold hpre1 hsuf
  have hub2 : updatedBlockText e r.text
      = pre ++ (latKeyQ ++ (e.version ++ '"' :: '\n' :: ((dateKey ++ e.date) ++ suf))) := by
    unfold updatedBlockText
    dsimp only []
    rw [hub1, hnodate]
    simp only [Bool.false_eq_true, if_false]
    exact insDate_single e.date e.version suf pre hvq hpre2 hsuf
  have hstep : stepDecision cycles r = .ok (some
      (pre ++ (latKeyQ ++ (e.version ++ '"' :: '\n' :: ((dateKey ++ e.date) ++ suf))),
       changeDesc r.releaseCycle (currentVersionOf r) e.version)) := by
    unfold stepDecision
    rw [hc]
    dsimp only []
    rw [hnp]
    dsimp only []
    rw [hcp]
    dsimp only []
    simp only [hgt, if_true]
    rw [hub2]
  unfold applyStep
  rw [hstep]

/-- The feed map of the end-to-end scenario. -/
def exFeedB : Cycles :=
  setCycle emptyCycles "6.3".data ⟨"6.3.3-c842".data, "2025-12-17".data⟩

/-- A document whose single block has a `latest` field but no
`latestReleaseDate` field. -/
def latOnlyDoc : List Char := "  - releaseCycle: \"6.3\"\n    latest: \"6.3.2\"\n---\n".data

/-- The single block of `latOnlyDoc` as `parse_md_releases` returns it. -/
def relLatOnly : Release :=
  { releaseCycle := "6.3".data
    latest := some "6.3.2".data
    latestReleaseDate := none
    start := 0
    stop := 43
    text := "  - releaseCycle: \"6.3\"\n    latest: \"6.3.2\"".data }

example : parse_md_releases latOnlyDoc = [relLatOnly] := by decide

/-- Witness for C7 at the `latOnlyDoc` block: the new `latestReleaseDate`
line appears right after the (updated) `latest` line and the rest of the
block is untouched. -/
theorem c7_missing_date_insertion_witness :
    applyStep exFeedB (latOnlyDoc, []) relLatOnly
      = .ok ("  - releaseCycle: \"6.3\"\n    latest: \"6.3.3-c842\"\n    latestReleaseDate: 2025-12-17\n---\n".data,
             ["6.3: 6.3.2 -> 6.3.3-c842".data]) :=
  c7_missing_date_insertion exFeedB latOnlyDoc [] relLatOnly
    ⟨"6.3.3-c842".data, "2025-12-17".data⟩ (6, 3, 3, 842) (6, 3, 2, 0)
    "  - releaseCycle: \"6.3\"\n".data "6.3.2".data []
    (by decide) (by decide) (by decide) (by decide) (by decide) (by rfl) (by decide)
    (by decide) (by rfl) (by rfl) (by rfl)




/-- The document rebuilt from position `p` on: the untouched gap before each
block, the block's (possibly rewritten) text, and the untouched tail after
the last block. -/
def rebuild (content : List Char) (upd : Release → List Char) : Nat → List Release → List Char
  | p, [] => content.drop p
  | p, r :: rs => ((content.take r.start).drop p) ++ upd r ++ rebuild content upd r.stop rs

/-- The text a block contributes to the output document: its rewritten text
when it qualifies, its original text otherwise. -/
def newBlockOf (cycles : Cycles) (r : Release) : List Char :=
  match stepDecision cycles r with
  | .ok (some (nb, _)) => nb
  | _ => r.text

/-- A slice that ends before `q` is unaffected by what stands after the
`q`-prefix. -/
theorem slice_preserved (content z : List Char) (a b q : Nat)
    (hab : a ≤ b) (hb : b ≤ q) (hq : q ≤ content.length) :
    ((content.take q ++ z).drop a).take (b - a) = (content.drop a).take (b - a) := by
  have hlt : (content.take q).length = q := by
    rw [List.length_take]
    omega
  rw [List.drop_append_of_le_length (by omega)]
  have hlen2 : ((content.take q).drop a).length = q - a := by
    rw [List.length_drop, hlt]
  rw [List.take_append_of_le_length (by omega)]
  rw [List.drop_take]
  rw [List.take_take]
  congr 1
  omega

/-- Replacing the last block's span and rebuilding the earlier blocks is the
same as rebuilding all blocks at once. -/
theorem rebuild_concat (content : List Char) (upd : Release → List Char) (r : Release)
    (hstart : r.start ≤ content.length) :
    ∀ (rs : List Release) (p : Nat), p ≤ r.start →
      (∀ x ∈ rs, x.stop ≤ r.start ∧ x.start ≤ x.stop) →
      rebuild (content.take r.start ++ upd r ++ content.drop r.stop) upd p rs
        = rebuild content upd p (rs ++ [r]) := by
  intro rs
  induction rs with
  | nil =>
    intro p hp _
    show (content.take r.start ++ upd r ++ content.drop r.stop).drop p
      = ((content.take r.start).drop p) ++ upd r ++ rebuild content upd r.stop []
    have hlt : (content.take r.start).length = r.start := by
      rw [List.length_take]
      omega
    rw [List.append_assoc, List.drop_append_of_le_length (by omega), ← List.append_assoc]
    rfl
  | cons x rs ih =>
    intro p hp hall
    obtain ⟨hx1, hx2⟩ := hall x (List.mem_cons_self x rs)
    show ((content.take r.start ++ upd r ++ content.drop r.stop).take x.start).drop p
        ++ upd x ++ rebuild (content.take r.start ++ upd r ++ content.drop r.stop) upd x.stop rs
      = ((content.take x.start).drop p) ++ upd x ++ rebuild content upd x.stop (rs ++ [r])
    have hlt : (content.take r.start).length = r.start := by
      rw [List.length_take]
      omega
    have htk : (content.take r.start ++ upd r ++ content.drop r.stop).take x.start
        = content.take x.start := by
      rw [List.append_assoc, List.take_append_of_le_length (by omega), List.take_take]
      congr 1
      omega
    rw [htk, ih x.stop hx1 (fun y hy => hall y (List.mem_cons_of_mem x hy))]

/-- The reverse-order fold of `applyStep` produces exactly the rebuilt
document, provided the blocks are non-overlapping, in document order, and
their recorded texts match their slices. -/
theorem fold_rebuild_rev (cycles : Cycles) :
    ∀ (l : List Release) (content : List Char) (ch0 : List (List Char))
      (c' : List Char) (ch' : List (List Char)),
      List.Pairwise (fun a b => b.stop ≤ a.start) l →
      (∀ r ∈ l, r.start ≤ r.stop ∧ r.stop ≤ content.length
        ∧ r.text = (content.drop r.start).take (r.stop - r.start)) →
      l.foldlM (applyStep cycles) (content, ch0) = .ok (c', ch') →
      c' = rebuild content (newBlockOf cycles) 0 l.reverse := by
  intro l
  induction l with
  | nil =>
    intro content ch0 c' ch' _ _ h
    have hst : ((content, ch0) : List Char × List (List Char)) = (c', ch') := by
      simpa [List.foldlM_nil, pure, Except.pure] using h
    show c' = content.drop 0
    rw [List.drop_zero]
    exact (congrArg Prod.fst hst).symm
  | cons r l ih =>
    intro content ch0 c' ch' hpw hcons h
    rw [List.foldlM_cons] at h
    rw [List.pairwise_cons] at hpw
    obtain ⟨hr1, hr2, hr3⟩ := hcons r (List.mem_cons_self r l)
    have hcons₁ : ∀ (z : List Char), ∀ x ∈ l, x.start ≤ x.stop
        ∧ x.stop ≤ (content.take r.start ++ z).length
        ∧ x.text = ((content.take r.start ++ z).drop x.start).take (x.stop - x.start) := by
      intro z x hx
      obtain ⟨hx1, hx2, hx3⟩ := hcons x (List.mem_cons_of_mem r hx)
      have hxr : x.stop ≤ r.start := hpw.1 x hx
      refine ⟨hx1, ?_, ?_⟩
      · have : (content.take r.start).length = r.start := by
          rw [List.length_take]; omega
        rw [List.length_append, this]
        omega
      · rw [slice_preserved content z x.start x.stop r.start hx1 hxr (by omega)]
        exact hx3
    cases hd : stepDecision cycles r with
    | error e =>
      rw [show applyStep cycles (content, ch0) r = .error e by simp [applyStep, hd]] at h
      simp only [bind, Except.bind] at h
      exact absurd h (by simp)
    | ok dec =>
      have hnb : newBlockOf cycles r = match dec with
          | some (nb, _) => nb
          | none => r.text := by
        cases dec with
        | none => simp [newBlockOf, hd]
        | some p => simp [newBlockOf, hd]
      cases dec with
      | none =>
        rw [show applyStep cycles (content, ch0) r = .ok (content, ch0) by
          simp [applyStep, hd]] at h
        simp only [bind, Except.bind] at h
        have hres := ih content ch0 c' ch' hpw.2 (fun x hx => hcons x (List.mem_cons_of_mem r hx)) h
        rw [hres, List.reverse_cons]
        have hsplice : content = content.take r.start
            ++ newBlockOf cycles r ++ content.drop r.stop := by
          rw [hnb]
          dsimp only []
          rw [hr3, List.append_assoc]
          exact (splice_self content r.start r.stop hr1).symm
        conv_lhs => rw [hsplice]
        exact rebuild_concat content (newBlockOf cycles) r (by omega) l.reverse 0
          (by omega)
          (fun x hx => ⟨hpw.1 x (List.mem_reverse.mp hx),
            (hcons x (List.mem_cons_of_mem r (List.mem_reverse.mp hx))).1⟩)
      | some p =>
        rw [show applyStep cycles (content, ch0) r
            = .ok (content.take r.start ++ p.1 ++ content.drop r.stop, ch0 ++ [p.2]) by
          simp [applyStep, hd]] at h
        simp only [bind, Except.bind] at h
        have hcons₂ : ∀ x ∈ l, x.start ≤ x.stop
            ∧ x.stop ≤ (content.take r.start ++ p.1 ++ content.drop r.stop).length
            ∧ x.text = ((content.take r.start ++ p.1 ++ content.drop r.stop).drop x.start).take
                (x.stop - x.start) := by
          intro x hx
          have := hcons₁ (p.1 ++ content.drop r.stop) x hx
          rw [← List.append_assoc] at this
          exact this
        have hres := ih (content.take r.start ++ p.1 ++ content.drop r.stop) (ch0 ++ [p.2])
          c' ch' hpw.2 hcons₂ h
        rw [hres, List.reverse_cons]
        rw [show p.1 = newBlockOf cycles r by rw [hnb]]
        exact rebuild_concat content (newBlockOf cycles) r (by omega) l.reverse 0
          (by omega)
          (fun x hx => ⟨hpw.1 x (List.mem_reverse.mp hx),
            (hcons x (List.mem_cons_of_mem r (List.mem_reverse.mp hx))).1⟩)

/-- Dropping the greedy run's length is dropping while the predicate holds. -/
theorem drop_length_takeWhile {p : Char → Bool} (t : List Char) :
    t.drop (t.takeWhile p).length = t.dropWhile p := by
  induction t with
  | nil => rfl
  | cons c t ih =>
    by_cases hc : p c = true
    · simp only [List.takeWhile_cons, List.dropWhile_cons, hc, if_true, List.length_cons,
        List.drop_succ_cons]
      exact ih
    · simp only [List.takeWhile_cons, List.dropWhile_cons, hc, Bool.false_eq_true, if_false,
        List.length_nil, List.drop_zero]

/-- Inversion of a successful `latest`-pattern match: the string decomposes
as the fixed opening, a quote-free value, the closing quote, and the rest. -/
theorem matchLatestAt_some {s old : List Char} {n : Nat}
    (h : matchLatestAt s = some (old, n)) :
    (∀ ch ∈ old, ch ≠ '"') ∧ latKeyQ.length + old.length + 1 = n
    ∧ s = latKeyQ ++ (old ++ '"' :: s.drop n) := by
  unfold matchLatestAt at h
  split at h
  next hp =>
    dsimp only [] at h
    split at h
    next hq => exact absurd h (by simp)
    next hq =>
      rw [Option.some.injEq, Prod.mk.injEq] at h
      obtain ⟨hold, hn⟩ := h
      have hst : s = latKeyQ ++ s.drop latKeyQ.length := eq_append_drop_of_isPrefixOf hp
      set t := s.drop latKeyQ.length with htdef
      rw [drop_length_takeWhile] at hq
      rw [hold] at hn
      have hdw : ∃ u, t.dropWhile (· ≠ '"') = '"' :: u := by
        cases hcase : t.dropWhile (· ≠ '"') with
        | nil =>
          rw [hcase] at hq
          exact absurd rfl hq
        | cons x u =>
          have hh := List.head?_dropWhile_not (fun c => decide (c ≠ '"')) t
          rw [hcase] at hh
          exact ⟨u, by rw [show x = '"' by simpa using hh]⟩
      obtain ⟨u, hu⟩ := hdw
      have hteq : t = old ++ '"' :: u := by
        conv_lhs => rw [← List.takeWhile_append_dropWhile (fun c => decide (c ≠ '"')) t]
        rw [hu, hold]
      have hdropn : s.drop n = u := by
        rw [← hn, hst, hteq]
        rw [show latKeyQ ++ (old ++ '"' :: u) = (latKeyQ ++ (old ++ ['"'])) ++ u by simp]
        rw [show latKeyQ.length + old.length + 1 = (latKeyQ ++ (old ++ ['"'])).length by
          simp only [List.length_append, List.length_cons, List.length_nil]
          omega]
        rw [List.drop_left]
      refine ⟨?_, hn, ?_⟩
      · intro ch hch
        rw [← hold] at hch
        simpa using List.mem_takeWhile_imp hch
      · rw [hdropn, hst, hteq]
  next hp => exact absurd h (by simp)

/-- What the first substitution may do to a block: copy characters, and
rewrite quoted `latest` values to `v`. -/
inductive FrameLatest (v : List Char) : List Char → List Char → Prop
  | nil : FrameLatest v [] []
  | copy (c : Char) {s t : List Char} : FrameLatest v s t → FrameLatest v (c :: s) (c :: t)
  | repl (old : List Char) {s t : List Char} : (∀ ch ∈ old, ch ≠ '"') →
      FrameLatest v s t →
      FrameLatest v (latKeyQ ++ (old ++ '"' :: s)) (latKeyQ ++ (v ++ '"' :: t))

/-- What the second substitution may do to a block: copy characters,
rewrite a `latestReleaseDate` value to `d`, or insert the
`latestReleaseDate: d` line right after a `latest` line. -/
inductive FrameDateIns (d : List Char) : List Char → List Char → Prop
  | nil : FrameDateIns d [] []
  | copy (c : Char) {s t : List Char} : FrameDateIns d s t → FrameDateIns d (c :: s) (c :: t)
  | dateRepl (old : List Char) {s t : List Char} : old ≠ [] →
      (∀ ch ∈ old, isPySpace ch = false) → FrameDateIns d s t →
      FrameDateIns d (dateKey ++ (old ++ s)) (dateKey ++ (d ++ t))
  | insLine (val : List Char) {s t : List Char} : (∀ ch ∈ val, ch ≠ '"') →
      FrameDateIns d s t →
      FrameDateIns d (latKeyQ ++ (val ++ '"' :: s))
        (latKeyQ ++ (val ++ '"' :: '\n' :: ((dateKey ++ d) ++ t)))

/-- Every string is `FrameLatest`-related to itself. -/
theorem frameLatest_refl (v : List Char) : ∀ s, FrameLatest v s s := by
  intro s
  induction s with
  | nil => exact FrameLatest.nil
  | cons c s ih => exact FrameLatest.copy c ih

/-- Every string is `FrameDateIns`-related to itself. -/
theorem frameDateIns_refl (d : List Char) : ∀ s, FrameDateIns d s s := by
  intro s
  induction s with
  | nil => exact FrameDateIns.nil
  | cons c s ih => exact FrameDateIns.copy c ih

/-- Stage 1 (`subLatest`) only rewrites `latest` values. -/
theorem frameLatest_go (v : List Char) :
    ∀ (n : Nat) (s : List Char), s.length ≤ n → FrameLatest v s (goSubLatest v 0 s) := by
  intro n
  induction n with
  | zero =>
    intro s hlen
    have hs : s = [] := by
      cases s with
      | nil => rfl
      | cons c rest => simp at hlen
    subst hs
    exact FrameLatest.nil
  | succ n ih =>
    intro s hlen
    cases s with
    | nil => exact FrameLatest.nil
    | cons c rest =>
      rw [goSubLatest_cons_eq]
      cases hm : matchLatestAt (c :: rest) with
      | none =>
        dsimp only []
        refine FrameLatest.copy c (ih rest ?_)
        simp only [List.length_cons] at hlen
        omega
      | some p =>
        obtain ⟨old, nn⟩ := p
        dsimp only []
        obtain ⟨hold, hnn, hdecomp⟩ := matchLatestAt_some hm
        set suf := (c :: rest).drop nn with hsufdef
        have h1 : c :: rest = ' ' :: ("   latest: \"".data ++ (old ++ '"' :: suf)) :=
          hdecomp.trans rfl
        have hrest : rest = ("   latest: \"".data ++ (old ++ ['"'])) ++ suf := by
          injection h1 with hc hrest'
          rw [hrest']
          simp
        have h13 : latKeyQ.length = 13 := rfl
        have hlen' : nn - 1 = ("   latest: \"".data ++ (old ++ ['"'])).length := by
          rw [← hnn]
          simp only [List.length_append, List.length_cons, List.length_nil, h13]
          omega
        have hsl : suf.length ≤ n := by
          rw [hsufdef]
          simp only [List.length_drop, List.length_cons]
          simp only [List.length_cons] at hlen
          omega
        have hgo : goSubLatest v (nn - 1) rest = goSubLatest v 0 suf := by
          rw [hrest, hlen', goSubLatest_skip]
        rw [hgo, hdecomp]
        have hrepl := FrameLatest.repl (v := v) old hold (ih suf hsl)
        simpa [List.append_assoc] using hrepl

/-- `subLatest` realizes the stage-1 frame relation. -/
theorem frameLatest_subLatest (v s : List Char) : FrameLatest v s (subLatest v s) :=
  frameLatest_go v s.length s (Nat.le_refl _)

/-- Inversion of a successful `latestReleaseDate`-pattern match. -/
theorem matchDateAt_some {s : List Char} {n : Nat} (h : matchDateAt s = some n) :
    ∃ old, old ≠ [] ∧ (∀ ch ∈ old, isPySpace ch = false)
      ∧ dateKey.length + old.length = n ∧ s = dateKey ++ (old ++ s.drop n) := by
  unfold matchDateAt at h
  split at h
  next hp =>
    dsimp only [] at h
    split at h
    next hrun => exact absurd h (by simp)
    next hrun =>
      rw [Option.some.injEq] at h
      have hst : s = dateKey ++ s.drop dateKey.length := eq_append_drop_of_isPrefixOf hp
      set t := s.drop dateKey.length with htdef
      set run := t.takeWhile (fun c => !isPySpace c) with hrundef
      have hne : run ≠ [] := by
        intro hnil
        rw [hnil] at hrun
        exact hrun rfl
      have hns : ∀ ch ∈ run, isPySpace ch = false := by
        intro ch hch
        have := List.mem_takeWhile_imp hch
        simpa using this
      have hteq : t = run ++ t.dropWhile (fun c => !isPySpace c) :=
        (List.takeWhile_append_dropWhile _ t).symm
      have hdropn : s.drop n = t.dropWhile (fun c => !isPySpace c) := by
        rw [← h]
        rw [show s.drop (dateKey.length + run.length)
            = (s.drop dateKey.length).drop run.length by
          rw [List.drop_drop]
          all_goals (congr 1; omega)]
        rw [← htdef, ← drop_length_takeWhile (p := fun c => !isPySpace c) t, hrundef]
      exact ⟨run, hne, hns, h, by
        conv_lhs => rw [hst, hteq]
        rw [hdropn]⟩
  next hp => exact absurd h (by simp)

/-- One-step equation of the date-substitution scanner. -/
theorem goSubDate_cons_eq (d : List Char) (c : Char) (rest : List Char) :
    goSubDate d 0 (c :: rest)
      = match matchDateAt (c :: rest) with
        | some n => dateKey ++ d ++ goSubDate d (n - 1) rest
        | none => c :: goSubDate d 0 rest := rfl

/-- Skipping counts characters for the date scanner. -/
theorem goSubDate_skip (d : List Char) :
    ∀ (a s : List Char), goSubDate d a.length (a ++ s) = goSubDate d 0 s := by
  intro a
  induction a with
  | nil => intro s; rfl
  | cons c a ih => intro s; exact ih s

/-- Stage 2, replacement branch (`subDate`), only rewrites date values. -/
theorem frameDateIns_goSubDate (d : List Char) :
    ∀ (n : Nat) (s : List Char), s.length ≤ n → FrameDateIns d s (goSubDate d 0 s) := by
  intro n
  induction n with
  | zero =>
    intro s hlen
    have hs : s = [] := by
      cases s with
      | nil => rfl
      | cons c rest => simp at hlen
    subst hs
    exact FrameDateIns.nil
  | succ n ih =>
    intro s hlen
    cases s with
    | nil => exact FrameDateIns.nil
    | cons c rest =>
      rw [goSubDate_cons_eq]
      cases hm : matchDateAt (c :: rest) with
      | none =>
        dsimp only []
        refine FrameDateIns.copy c (ih rest ?_)
        simp only [List.length_cons] at hlen
        omega
      | some nn =>
        dsimp only []
        obtain ⟨old, hne, hns, hnn, hdecomp⟩ := matchDateAt_some hm
        set suf := (c :: rest).drop nn with hsufdef
        have h1 : c :: rest = ' ' :: ("   latestReleaseDate: ".data ++ (old ++ suf)) :=
          hdecomp.trans rfl
        have hrest : rest = ("   latestReleaseDate: ".data ++ old) ++ suf := by
          injection h1 with hc hrest'
          all_goals simp
        have h23 : dateKey.length = 23 := rfl
        have hlen' : nn - 1 = ("   latestReleaseDate: ".data ++ old).length := by
          rw [← hnn]
          simp only [List.length_append, List.length_cons, List.length_nil, h23]
          all_goals omega
        have hsl : suf.length ≤ n := by
          rw [hsufdef]
          simp only [List.length_drop, List.length_cons]
          simp only [List.length_cons] at hlen
          omega
        have hgo : goSubDate d (nn - 1) rest = goSubDate d 0 suf := by
          rw [hrest, hlen', goSubDate_skip]
        rw [hgo, hdecomp]
        have hrepl := FrameDateIns.dateRepl (d := d) old hne hns (ih suf hsl)
        simpa [List.append_assoc] using hrepl

/-- `subDate` realizes the stage-2 frame relation. -/
theorem frameDateIns_subDate (d s : List Char) : FrameDateIns d s (subDate d s) :=
  frameDateIns_goSubDate d s.length s (Nat.le_refl _)

/-- Stage 2, insertion branch (`insDate`), only inserts the date line after
`latest` lines. -/
theorem frameDateIns_goInsDate (d : List Char) :
    ∀ (n : Nat) (s : List Char), s.length ≤ n → FrameDateIns d s (goInsDate d 0 s) := by
  intro n
  induction n with
  | zero =>
    intro s hlen
    have hs : s = [] := by
      cases s with
      | nil => rfl
      | cons c rest => simp at hlen
    subst hs
    exact FrameDateIns.nil
  | succ n ih =>
    intro s hlen
    cases s with
    | nil => exact FrameDateIns.nil
    | cons c rest =>
      rw [goInsDate_cons_eq]
      cases hm : matchLatestAt (c :: rest) with
      | none =>
        dsimp only []
        refine FrameDateIns.copy c (ih rest ?_)
        simp only [List.length_cons] at hlen
        omega
      | some p =>
        obtain ⟨old, nn⟩ := p
        dsimp only []
        obtain ⟨hold, hnn, hdecomp⟩ := matchLatestAt_some hm
        set suf := (c :: rest).drop nn with hsufdef
        have h1 : c :: rest = ' ' :: ("   latest: \"".data ++ (old ++ '"' :: suf)) :=
          hdecomp.trans rfl
        have hrest : rest = ("   latest: \"".data ++ (old ++ ['"'])) ++ suf := by
          injection h1 with hc hrest'
          rw [hrest']
          simp
        have h13 : latKeyQ.length = 13 := rfl
        have hlen' : nn - 1 = ("   latest: \"".data ++ (old ++ ['"'])).length := by
          rw [← hnn]
          simp only [List.length_append, List.length_cons, List.length_nil, h13]
          omega
        have hsl : suf.length ≤ n := by
          rw [hsufdef]
          simp only [List.length_drop, List.length_cons]
          simp only [List.length_cons] at hlen
          omega
        have hgo : goInsDate d (nn - 1) rest = goInsDate d 0 suf := by
          rw [hrest, hlen', goInsDate_skip]
        rw [hgo, hdecomp]
        have hins := FrameDateIns.insLine (d := d) old hold (ih suf hsl)
        simpa [List.append_assoc] using hins

/-- `insDate` realizes the stage-2 frame relation. -/
theorem frameDateIns_insDate (d s : List Char) : FrameDateIns d s (insDate d s) :=
  frameDateIns_goInsDate d s.length s (Nat.le_refl _)

/-- The claim's per-block frame: when the block's cycle is in the feed map,
its output text is reachable from its input text by the two stages — first
rewriting `latest` values to the feed version, then either rewriting the
`latestReleaseDate` value to the feed date or inserting that line after the
`latest` line; characters outside those spans are copied verbatim. -/
def blockFramed (cycles : Cycles) (r : Release) : Prop :=
  ∀ e : CycleEntry, cycles r.releaseCycle = some e →
    ∃ m : List Char, FrameLatest e.version r.text m
      ∧ FrameDateIns e.date m (newBlockOf cycles r)

/-- Every block is framed: a skipped block keeps its text (both stages copy
everything), a qualifying block goes through exactly the two stages. -/
theorem blockFramed_all (cycles : Cycles) (r : Release) : blockFramed cycles r := by
  intro e he
  cases hd : stepDecision cycles r with
  | error err =>
    refine ⟨r.text, frameLatest_refl _ _, ?_⟩
    rw [show newBlockOf cycles r = r.text by simp [newBlockOf, hd]]
    exact frameDateIns_refl _ _
  | ok dec =>
    cases dec with
    | none =>
      refine ⟨r.text, frameLatest_refl _ _, ?_⟩
      rw [show newBlockOf cycles r = r.text by simp [newBlockOf, hd]]
      exact frameDateIns_refl _ _
    | some p =>
      have hp : p.1 = updatedBlockText e r.text := by
        unfold stepDecision at hd
        rw [he] at hd
        dsimp only [] at hd
        split at hd
        next => exact absurd hd (by simp)
        next np hnp =>
          split at hd
          next => exact absurd hd (by simp)
          next cp hcp =>
            split at hd
            next =>
              rw [Except.ok.injEq, Option.some.injEq] at hd
              rw [← hd]
            next => exact absurd hd (by simp)
      refine ⟨subLatest e.version r.text, frameLatest_subLatest _ _, ?_⟩
      rw [show newBlockOf cycles r = p.1 by simp [newBlockOf, hd], hp]
      unfold updatedBlockText
      dsimp only []
      by_cases hds : containsSub dateKeyCheck (subLatest e.version r.text) = true
      · rw [hds]
        simp only [if_true]
        exact frameDateIns_subDate _ _
      · rw [Bool.not_eq_true] at hds
        rw [hds]
        simp only [Bool.false_eq_true, if_false]
        exact frameDateIns_insDate _ _

/-- C8 (frame property): for every input document, feed map, and block
sequence whose blocks are in document order, non-overlapping, and whose
recorded texts match their slices, the document `apply_updates` returns is
the input rebuilt with each block's span replaced by that block's output
text — every byte outside the block spans (the gaps and the tail) is
preserved verbatim, non-qualifying blocks keep their text, and each block's
output text differs from its input text only in the `latest` value spans
and the `latestReleaseDate` value span or inserted line. -/
theorem c8_frame (cycles : Cycles) (content c' : List Char) (releases : List Release)
    (ch : List (List Char))
    (hpw : List.Pairwise (fun a b => a.stop ≤ b.start) releases)
    (hcons : ∀ r ∈ releases, r.start ≤ r.stop ∧ r.stop ≤ content.length
        ∧ r.text = (content.drop r.start).take (r.stop - r.start))
    (h : apply_updates content releases cycles = .ok (c', ch)) :
    c' = rebuild content (newBlockOf cycles) 0 releases
    ∧ ∀ r ∈ releases, blockFramed cycles r := by
  constructor
  · have hpw' : List.Pairwise (fun a b => b.stop ≤ a.start) releases.reverse := by
      rw [List.pairwise_reverse]
      exact hpw
    have hcons' : ∀ r ∈ releases.reverse, r.start ≤ r.stop ∧ r.stop ≤ content.length
        ∧ r.text = (content.drop r.start).take (r.stop - r.start) :=
      fun r hr => hcons r (List.mem_reverse.mp hr)
    have hres := fold_rebuild_rev cycles releases.reverse content [] c' ch hpw' hcons' h
    rwa [List.reverse_reverse] at hres
  · intro r _
    exact blockFramed_all cycles r

/-- Witness for C8 at the end-to-end document: the output is the rebuilt
document and the single block is framed. -/
theorem c8_frame_witness :
    ("  - releaseCycle: \"6.3\"\n    latest: \"6.3.3-c842\"\n    latestReleaseDate: 2025-12-17\n---\n".data : List Char)
      = rebuild latOnlyDoc (newBlockOf exFeedB) 0 [relLatOnly]
    ∧ blockFramed exFeedB relLatOnly := by
  have h := c8_frame exFeedB latOnlyDoc
    "  - releaseCycle: \"6.3\"\n    latest: \"6.3.3-c842\"\n    latestReleaseDate: 2025-12-17\n---\n".data
    [relLatOnly] ["6.3: 6.3.2 -> 6.3.3-c842".data]
    (by decide) (by decide) (by rfl)
  exact ⟨h.1, h.2 relLatOnly (List.mem_cons_self _ _)⟩


end GP
